import Mathlib

/-!
Verification development for the epstein_map repository.

Shallow embedding of `src/tools/utilities.py`, `src/tools/extractPDFdata.py`
and `src/build.py`.  Python strings are modelled as `List Char`, Python floats
produced by `difflib` ratios and by `round` are modelled as rationals, Python
dicts (which preserve insertion order) as association lists, and the file
system together with the external binary collaborators (hashing, PDF page
counting, raw text extraction, datasketch MinHash signatures and LSH queries)
as explicit function parameters.
-/

set_option maxHeartbeats 1000000
set_option maxRecDepth 4000

/-- Python strings are modelled as lists of characters. -/
abbrev Str := List Char

/-! ## difflib.SequenceMatcher

The stdlib collaborator called by `utilities.similarity` and
`utilities.score_person` via `SequenceMatcher(None, a, b).ratio()`.  Embedded
from CPython `Lib/difflib.py` with `isjunk=None` and `autojunk=True` (the
defaults used at every call site in the repository).  With `isjunk=None` the
set `bjunk` is empty, so the two junk-extension `while` loops of
`find_longest_match` never run and are omitted. -/

/-- `dict.get(k, d)` for the `j2len` dictionaries of `find_longest_match`. -/
def alistGetD (m : List (Nat × Nat)) (k d : Nat) : Nat :=
  match m.find? (fun p => p.1 == k) with
  | some p => p.2
  | none => d

/-- `newj2len[j] = k` dictionary assignment. -/
def alistSet (m : List (Nat × Nat)) (k v : Nat) : List (Nat × Nat) :=
  if m.any (fun p => p.1 == k) then m.map (fun p => if p.1 == k then (k, v) else p)
  else m ++ [(k, v)]

/-- `b2j.get(c, [])`. -/
def b2jLookup (m : List (Char × List Nat)) (c : Char) : List Nat :=
  match m.find? (fun p => p.1 == c) with
  | some p => p.2
  | none => []

/-- One `b2j.setdefault(elt, []).append(i)` step of `__chain_b`. -/
def b2jAdd (m : List (Char × List Nat)) (c : Char) (i : Nat) : List (Char × List Nat) :=
  if m.any (fun p => p.1 == c) then
    m.map (fun p => if p.1 == c then (p.1, p.2 ++ [i]) else p)
  else m ++ [(c, [i])]

/-- The position index `b2j` of `__chain_b` before the autojunk purge. -/
def chainB0 (b : Str) : List (Char × List Nat) :=
  b.enum.foldl (fun m p => b2jAdd m p.2 p.1) []

/-- `__chain_b`: build `b2j`, then (isjunk is None, so `bjunk` stays empty)
purge popular elements when `autojunk` applies (`len(b) >= 200`):
an element is popular when its index list is longer than `len(b) // 100 + 1`. -/
def chainB (b : Str) : List (Char × List Nat) :=
  let m := chainB0 b
  if 200 ≤ b.length then
    let ntest := b.length / 100 + 1
    m.filter (fun p => p.2.length ≤ ntest)
  else m

/-- The inner `for j in b2j.get(a[i], nothing)` loop of `find_longest_match`:
`continue` on `j < blo`, `break` on `j >= bhi`, otherwise
`k = newj2len[j] = j2len.get(j-1, 0) + 1` (the key `j-1` is Python's `-1`
when `j = 0`, which is never present, hence the guard) and a best-block
update on `k > bestsize`.  Returns the new dictionary and the best triple. -/
def flmInner (i blo bhi : Nat) (prev : List (Nat × Nat)) :
    List Nat → List (Nat × Nat) → Nat × Nat × Nat → List (Nat × Nat) × (Nat × Nat × Nat)
  | [], newm, best => (newm, best)
  | j :: js, newm, best =>
    if j < blo then flmInner i blo bhi prev js newm best
    else if bhi ≤ j then (newm, best)
    else
      let k := (if j = 0 then 0 else alistGetD prev (j - 1) 0) + 1
      let newm2 := alistSet newm j k
      -- Python's `i-k+1` and `j-k+1` are written `i+1-k` and `j+1-k`: the
      -- run length `k` never exceeds `i+1` (resp. `j+1`), so they agree,
      -- while `(i-k)+1` would truncate at zero in ℕ.
      let best2 := if best.2.2 < k then (i + 1 - k, j + 1 - k, k) else best
      flmInner i blo bhi prev js newm2 best2

/-- The outer `for i in range(alo, ahi)` loop of `find_longest_match`,
threading `j2len` from row to row. -/
def flmRows (a : Str) (b2j : List (Char × List Nat)) (blo bhi : Nat) :
    List Nat → List (Nat × Nat) → Nat × Nat × Nat → Nat × Nat × Nat
  | [], _, best => best
  | i :: is, j2len, best =>
    let r := flmInner i blo bhi j2len (b2jLookup b2j (a.getD i ' ')) [] best
    flmRows a b2j blo bhi is r.1 r.2

/-- The first extension `while` loop of `find_longest_match` (extend the best
block to the left while the characters before it match; `bjunk` is empty).
`fuel` bounds the iteration count structurally: each step requires
`alo < besti` and decrements `besti`, so starting fuel `besti` is never
exhausted before the loop condition fails. -/
def extendLeft (a b : Str) (alo blo : Nat) :
    Nat → Nat → Nat → Nat → Nat × Nat × Nat
  | 0, besti, bestj, bestsize => (besti, bestj, bestsize)
  | fuel + 1, besti, bestj, bestsize =>
    if alo < besti ∧ blo < bestj ∧
        a.getD (besti - 1) ' ' = b.getD (bestj - 1) ' ' then
      extendLeft a b alo blo fuel (besti - 1) (bestj - 1) (bestsize + 1)
    else (besti, bestj, bestsize)

/-- The second extension `while` loop of `find_longest_match` (extend the best
block to the right; `bjunk` is empty).  Each step requires
`bestj + bestsize < bhi` and increments `bestsize`, so starting fuel `bhi`
is never exhausted before the loop condition fails. -/
def extendRight (a b : Str) (ahi bhi : Nat) :
    Nat → Nat → Nat → Nat → Nat
  | 0, _, _, bestsize => bestsize
  | fuel + 1, besti, bestj, bestsize =>
    if besti + bestsize < ahi ∧ bestj + bestsize < bhi ∧
        a.getD (besti + bestsize) ' ' = b.getD (bestj + bestsize) ' ' then
      extendRight a b ahi bhi fuel besti bestj (bestsize + 1)
    else bestsize

/-- `SequenceMatcher.find_longest_match(alo, ahi, blo, bhi)` with empty junk. -/
def findLongestMatch (a b : Str) (b2j : List (Char × List Nat))
    (alo ahi blo bhi : Nat) : Nat × Nat × Nat :=
  let best := flmRows a b2j blo bhi (List.range' alo (ahi - alo)) [] (alo, blo, 0)
  let l := extendLeft a b alo blo best.1 best.1 best.2.1 best.2.2
  let sz := extendRight a b ahi bhi bhi l.1 l.2.1 l.2.2
  (l.1, l.2.1, sz)

/-- The region recursion of `get_matching_blocks`.  CPython drives it with an
explicit LIFO queue; the set of emitted `(i, j, size)` triples is the same as
this direct recursion.  `fuel` bounds the recursion depth; every recursive
call strictly shrinks `ahi - alo`, so `a.length + 1` fuel is never exhausted
on the top-level call. -/
def matchBlocks (a b : Str) (b2j : List (Char × List Nat)) :
    Nat → Nat → Nat → Nat → Nat → List (Nat × Nat × Nat)
  | 0, _, _, _, _ => []
  | fuel + 1, alo, ahi, blo, bhi =>
    let m := findLongestMatch a b b2j alo ahi blo bhi
    if m.2.2 = 0 then []
    else
      m :: ((if alo < m.1 ∧ blo < m.2.1 then
               matchBlocks a b b2j fuel alo m.1 blo m.2.1
             else []) ++
            (if m.1 + m.2.2 < ahi ∧ m.2.1 + m.2.2 < bhi then
               matchBlocks a b b2j fuel (m.1 + m.2.2) ahi (m.2.1 + m.2.2) bhi
             else []))

/-- `SequenceMatcher(None, a, b).ratio()`: twice the total size of the
matching blocks over the total length, `1.0` when both are empty.  (The
`sort` and the merge of adjacent blocks performed by `get_matching_blocks`,
and its terminal zero-size sentinel, do not change the size total and are
omitted.)  The quotient `2*total / (len(a)+len(b))` is built with `mkRat`,
which denotes exactly that rational number. -/
def ratioOf (a b : Str) : ℚ :=
  let blocks := matchBlocks a b (chainB b) (a.length + 1) 0 a.length 0 b.length
  let total := (blocks.map (fun t => t.2.2)).sum
  if a.length + b.length = 0 then 1
  else mkRat (2 * total) (a.length + b.length)

/-- `utilities.similarity`: `1.0` when both strings are falsy (empty),
otherwise the SequenceMatcher ratio. -/
def similarity (a b : Str) : ℚ :=
  if a = [] ∧ b = [] then 1 else ratioOf a b

/-- `utilities.score_person`: the raw SequenceMatcher ratio. -/
def scorePerson (candidate knownName : Str) : ℚ := ratioOf candidate knownName


/-! ## utilities.normalize_text and friends -/

/-- The white-space class used by Python's `\s` (with `re.UNICODE`, the
default for `str` patterns) and by `str.split()` / `str.strip()`. -/
def pySpaceChars : List Char :=
  [' ', '\t', '\n', '\x0b', '\x0c', '\r', '\x1c', '\x1d', '\x1e', '\x1f',
   '\x85', '\xa0', '\u1680', '\u2000', '\u2001', '\u2002', '\u2003',
   '\u2004', '\u2005', '\u2006', '\u2007', '\u2008', '\u2009', '\u200a',
   '\u2028', '\u2029', '\u202f', '\u205f', '\u3000']

/-- Membership in the white-space class. -/
def isPySpace (c : Char) : Bool := c ∈ pySpaceChars

/-- The regex class `[a-z]` (ASCII range, as written in the source pattern). -/
def isLowerAscii (c : Char) : Bool := decide ('a' ≤ c ∧ c ≤ 'z')

/-- The regex class `[A-Z]`. -/
def isUpperAscii (c : Char) : Bool := decide ('A' ≤ c ∧ c ≤ 'Z')

/-- `text.replace("\n", " ")`. -/
def replaceNl (s : Str) : Str := s.map (fun c => if c = '\n' then ' ' else c)

/-- Worker for `re.sub(r"\s+", " ", text)`: the flag records whether we are
inside a white-space run whose single replacement space was already
emitted. -/
def collapseAux : Bool → Str → Str
  | _, [] => []
  | inRun, c :: rest =>
    if isPySpace c then
      if inRun then collapseAux true rest else ' ' :: collapseAux true rest
    else c :: collapseAux false rest

/-- `re.sub(r"\s+", " ", text)`: each maximal white-space run becomes one
space. -/
def collapseWs (s : Str) : Str := collapseAux false s

/-- `re.sub(r"([a-z])([A-Z])", r"\1 \2", text)`: left-to-right,
non-overlapping; after a replacement the scan resumes after the matched
pair. -/
def insertCamel : Str → Str
  | [] => []
  | [a] => [a]
  | a :: b :: rest =>
    if isLowerAscii a && isUpperAscii b then a :: ' ' :: b :: insertCamel rest
    else a :: insertCamel (b :: rest)

/-- Leading part of `str.strip()`. -/
def lstrip (s : Str) : Str := s.dropWhile isPySpace

/-- Trailing part of `str.strip()`. -/
def rstrip (s : Str) : Str := (s.reverse.dropWhile isPySpace).reverse

/-- `str.strip()` with no arguments. -/
def pyStrip (s : Str) : Str := rstrip (lstrip s)

/-- `utilities.normalize_text`: replace newlines by spaces, collapse
white-space runs, break OCR-joined `lowercaseUppercase` pairs, strip. -/
def normalizeText (s : Str) : Str := pyStrip (insertCamel (collapseWs (replaceNl s)))


/-- Worker for `str.split()` (split on white-space runs, no empty parts);
`acc` holds the current word reversed. -/
def splitWsAux : Str → Str → List Str
  | [], acc => if acc = [] then [] else [acc.reverse]
  | c :: rest, acc =>
    if isPySpace c then
      if acc = [] then splitWsAux rest [] else acc.reverse :: splitWsAux rest []
    else splitWsAux rest (c :: acc)

/-- `name.split()`. -/
def splitWs (s : Str) : List Str := splitWsAux s []

/-- `re.fullmatch(r"[A-Z]\.?", mid)`: a single capital letter with an
optional trailing period. -/
def midInitial : Str → Bool
  | [c] => isUpperAscii c
  | [c, d] => isUpperAscii c && d = '.'
  | _ => false

/-- `utilities.strip_middle_initial`: on a three-token name whose middle
token is a capital initial, return `f"{first} {last}"`; otherwise return the
name unchanged. -/
def stripMiddleInitial (name : Str) : Str :=
  match splitWs name with
  | [first, mid, last] => if midInitial mid then first ++ (' ' :: last) else name
  | _ => name


/-! ## extractPDFdata.canonicalize_person / cluster_people -/

/-- One row of the `PEOPLE_INDEX` known-identity table (external collaborator:
`{id, names: list[str]}`). -/
structure Person where
  id : String
  names : List Str
deriving DecidableEq

/-- The result dict of `canonicalize_person`. -/
structure ResolvedRef where
  id : Option String
  confidence : ℚ
  matchedName : Str
deriving DecidableEq

/-- Python `round(x, n)` on our rational model of floats: round half to
even at `n` decimal digits. -/
def roundHalfEven (q : ℚ) : ℤ :=
  let f := ⌊q⌋
  if q - (f : ℚ) < 1/2 then f
  else if (1 : ℚ)/2 < q - (f : ℚ) then f + 1
  else if f % 2 = 0 then f else f + 1

/-- `round(q, n)`. -/
def pyRoundTo (n : Nat) (q : ℚ) : ℚ := (roundHalfEven (q * 10 ^ n) : ℚ) / 10 ^ n

/-- The body of the inner `for known in person["names"]` loop of
`canonicalize_person`, threading `(best_match, best_score)`. -/
def canonStep (norm : Str) (acc : Option Person × ℚ) (p : Person) : Option Person × ℚ :=
  p.names.foldl
    (fun a al => if a.2 < scorePerson norm al then (some p, scorePerson norm al) else a) acc

/-- `extractPDFdata.canonicalize_person(name, people_index, threshold)`
(the Python default for `threshold` is `0.85`). -/
def canonicalizePerson (name : Str) (idx : List Person) (threshold : ℚ) : ResolvedRef :=
  let norm := normalizeText (stripMiddleInitial name)
  let best := idx.foldl (canonStep norm) (none, 0)
  match best.1 with
  | some bm =>
    if threshold ≤ best.2 then ⟨some bm.id, pyRoundTo 3 best.2, name⟩
    else ⟨none, pyRoundTo 3 best.2, name⟩
  | none => ⟨none, pyRoundTo 3 best.2, name⟩

/-- The spec-side quantity for `canonicalize_person`: the best fuzzy-match
score of the (normalized, initial-stripped) candidate over all aliases of
all known identities, `0` when there are none. -/
def bestAliasScore (name : Str) (idx : List Person) : ℚ :=
  let norm := normalizeText (stripMiddleInitial name)
  idx.foldl (fun m p => p.names.foldl (fun m2 al => max m2 (scorePerson norm al)) m) 0

/-- The inner `for cluster in clusters` search of `cluster_people`: append
`name` to the first cluster whose first member scores strictly more than
`0.85` (= `mkRat 17 20`) against it; `none` when no cluster qualifies. -/
def addToFirst (name : Str) : List (List Str) → Option (List (List Str))
  | [] => none
  | c :: cs =>
    if mkRat 17 20 < scorePerson name (c.headD []) then some ((c ++ [name]) :: cs)
    else (addToFirst name cs).map (fun r => c :: r)

/-- `extractPDFdata.cluster_people`. -/
def clusterPeople (unresolved : List Str) : List (List Str) :=
  unresolved.foldl (fun cs n => (addToFirst n cs).getD (cs ++ [[n]])) []

/-! ## extractPDFdata.build_report

The ambient file system and the external binary collaborators are bundled
into an environment of functions of the file path: `fs` maps a path to its
byte content (`none` for a missing/unreadable file), `shaFn` models
`hashlib.sha256(...).hexdigest()` on those bytes, `pagesFn` models
`len(PdfReader(path).pages)` with `none` for any failure, `rawText` models
`extract_text_from_pdf` (total, empty string on failure), `mhFn` models the
datasketch MinHash signature of the raw text, and `nameFn` models
`Path(p).name`. -/

structure Env where
  fs : String → Option (List Nat)
  shaFn : List Nat → String
  pagesFn : String → Option Nat
  rawText : String → Str
  mhFn : Str → List Nat
  nameFn : String → String

/-- One fully scanned record of the `items` list of `build_report`
(dict keys `path, name, size, sha256, text, pages, minhash`). -/
structure Item where
  path : String
  name : String
  size : Nat
  sha256 : String
  text : Str
  pages : Option Nat
  minhash : List Nat
deriving DecidableEq

/-- A member entry of a report group or of the singleton list (dict keys
`path, size, text, sha256, pages, minhash`). -/
structure FileEntry where
  path : String
  size : Nat
  text : Str
  sha256 : String
  pages : Option Nat
  minhash : List Nat
deriving DecidableEq

/-- The projection used by the three emission sites of `build_report`. -/
def toEntry (i : Item) : FileEntry := ⟨i.path, i.size, i.text, i.sha256, i.pages, i.minhash⟩

/-- A duplicate group of the report; `sha256` is present only on exact
groups. -/
structure DupGroup where
  type : String
  sha256 : Option String
  files : List FileEntry
deriving DecidableEq

/-- The `summary` block of the report. -/
structure Summary where
  total_files : Nat
  scanned : Nat
  exact_groups : Nat
  near_groups : Nat
  part_groups : Nat
  single_count : Nat
deriving DecidableEq

/-- The JSON report returned by `build_report`. -/
structure Report where
  summary : Summary
  groups : List DupGroup
  singletons : List FileEntry
deriving DecidableEq

/-- Scanning one file (the two metadata loops of `build_report`, merged per
file).  A missing file makes `p.stat()` raise (caught: `size = 0`), but then
`sha256_file` opens the file without any handler, so the `FileNotFoundError`
escapes `build_report`: this is modelled by the `Except.error` branch, which
aborts the whole scan.  On an existing file: `size` is the byte length,
`sha256` the digest of the bytes, `pages` the (possibly failed) page count,
`text` the normalized extracted text, and `minhash` the signature of the
*raw* (unnormalized) extracted text, exactly as in the source. -/
def scanItem (E : Env) (p : String) : Except String Item :=
  match E.fs p with
  | none => Except.error p
  | some bytes =>
    Except.ok ⟨p, E.nameFn p, bytes.length, E.shaFn bytes,
      normalizeText (E.rawText p), E.pagesFn p, E.mhFn (E.rawText p)⟩

/-- The `for it in items` scanning loop: stops at the first raised error. -/
def scanAll (E : Env) : List String → Except String (List Item)
  | [] => Except.ok []
  | p :: ps =>
    match scanItem E p with
    | Except.error e => Except.error e
    | Except.ok it =>
      match scanAll E ps with
      | Except.error e => Except.error e
      | Except.ok its => Except.ok (it :: its)

/-- `items = [i for i in items if (i["pages"] or 0) >= min_pages]` guarded by
`min_pages > 0` (`pages` of `None` — and of `0` — counts as `0`). -/
def scanFilter (items : List Item) (minPages : Nat) : List Item :=
  if 0 < minPages then items.filter (fun i => minPages ≤ i.pages.getD 0) else items

/-- Python `dict.setdefault(key, []).append(x)` grouping over a list,
preserving both first-occurrence key order and per-key element order, as a
Python dict does. -/
def ogroupStep {α κ : Type} [DecidableEq κ] (key : α → κ)
    (m : List (κ × List α)) (x : α) : List (κ × List α) :=
  if m.any (fun p => p.1 = key x) then
    m.map (fun p => if p.1 = key x then (p.1, p.2 ++ [x]) else p)
  else m ++ [(key x, [x])]

/-- The grouping fold itself. -/
def ogroup {α κ : Type} [DecidableEq κ] (key : α → κ) (l : List α) : List (κ × List α) :=
  l.foldl (ogroupStep key) []

/-- `sha_map` of `build_report`. -/
def shaMap (items : List Item) : List (String × List Item) :=
  ogroup (fun i => i.sha256) items

/-- The refinement admission of `build_report`: keep every candidate whose
text similarity to the anchor is at least `partial_thresh`. -/
def refineAdmit (anchor : Item) (cands : List Item) (pThresh : ℚ) : List Item :=
  cands.filter (fun c => pThresh ≤ similarity anchor.text c.text)

/-- `max_sim`: the maximum of `similarity(a["text"], b["text"])` over all
ordered pairs of *distinct positions* of the group (the `a is b` test skips
exactly the diagonal, since the dicts at distinct positions are distinct
objects), starting from `0.0`. -/
def maxPairSim (g : List Item) : ℚ :=
  g.enum.foldl
    (fun m a =>
      g.enum.foldl
        (fun m2 b => if a.1 = b.1 then m2 else max m2 (similarity a.2.text b.2.text)) m)
    0

/-- Same quantity computed on emitted file entries. -/
def maxPairSimE (g : List FileEntry) : ℚ :=
  g.enum.foldl
    (fun m a =>
      g.enum.foldl
        (fun m2 b => if a.1 = b.1 then m2 else max m2 (similarity a.2.text b.2.text)) m)
    0

/-- One iteration of the `for it in remaining` LSH loop of `build_report`.
The accumulator carries the emitted near/partial groups and the
`used_in_group` path set (as a list).  `query` models
`lsh.query(minhashes[key])` as a function of the key: the LSH index is fixed
during the whole loop, so the candidate list depends only on the key. -/
def npStep (remaining : List Item) (query : String → List String) (nThresh pThresh : ℚ)
    (acc : List DupGroup × List String) (it : Item) : List DupGroup × List String :=
  if it.path ∈ acc.2 then acc
  else
    let cands0 := query it.path
    let cands := if it.path ∈ cands0 then cands0 else cands0 ++ [it.path]
    let gitems := remaining.filter (fun x => x.path ∈ cands ∧ x.path ∉ acc.2)
    if gitems.length ≤ 1 then acc
    else
      match gitems with
      | [] => acc
      | anchor :: rest =>
        let fg := anchor :: refineAdmit anchor rest pThresh
        if 1 < fg.length then
          let gt := if nThresh ≤ maxPairSim fg then "near" else "partial"
          (acc.1 ++ [⟨gt, none, fg.map toEntry⟩], acc.2 ++ fg.map (fun x => x.path))
        else acc

/-- The whole `for it in remaining` loop. -/
def npLoop (remaining : List Item) (query : String → List String)
    (nThresh pThresh : ℚ) : List DupGroup × List String :=
  remaining.foldl (npStep remaining query nThresh pThresh) ([], [])

/-- `sum(1 for g in groups if g["type"] == t)`. -/
def countType (gs : List DupGroup) (t : String) : Nat :=
  (gs.filter (fun g => g.type = t)).length

/-- The pure tail of `build_report` after the metadata loops: min-page
filtering, exact grouping by SHA-256, the LSH near/partial pass, singleton
collection and report assembly. -/
def buildReportPure (files : List String) (items0 : List Item)
    (nThresh pThresh : ℚ) (minPages : Nat) (query : String → List String) : Report :=
  let items := scanFilter items0 minPages
  let sm := shaMap items
  let bigBuckets := sm.filter (fun p => 2 ≤ p.2.length)
  let exactGroups := bigBuckets.map
    (fun p => (⟨"exact", some p.1, p.2.map toEntry⟩ : DupGroup))
  let seen := bigBuckets.flatMap (fun p => p.2.map (fun i => i.path))
  let remaining := items.filter (fun i => i.path ∉ seen)
  let np := npLoop remaining query nThresh pThresh
  let groups := exactGroups ++ np.1
  let singles := items.filter (fun i => i.path ∉ seen ∧ i.path ∉ np.2)
  { summary :=
      ⟨files.length, items.length, countType groups "exact", countType groups "near",
        countType groups "partial", singles.length⟩,
    groups := groups,
    singletons := singles.map toEntry }

/-- `build_report(files, near_thresh, partial_thresh, min_pages, ...)`: the
scanning loops followed by the pure grouping; any `FileNotFoundError` raised
by `sha256_file` propagates out. -/
def buildReportE (E : Env) (files : List String) (nThresh pThresh : ℚ)
    (minPages : Nat) (query : String → List String) : Except String Report :=
  match scanAll E files with
  | Except.error e => Except.error e
  | Except.ok items => Except.ok (buildReportPure files items nThresh pThresh minPages query)

/-! ## build.merge_edges -/

/-- One input edge record (Python dict; every field is read with `.get`, so
each is optional). -/
structure EdgeIn where
  source : Option String
  target : Option String
  edge_id : Option String
  relationship : Option String
  weight : Option ℚ
deriving DecidableEq

/-- One entry of a merged edge's `edges` list. -/
structure SubEdge where
  edge_id : String
  relationship : String
  weight : ℚ
deriving DecidableEq

/-- One output record of `merge_edges`. -/
structure EdgeOut where
  source : Option String
  target : Option String
  edges : List SubEdge
  avg_weight : ℚ
deriving DecidableEq

/-- The per-edge record appended to `grouped[key]['edges']`, with the `.get`
defaults of the source (`''`, `'unknown'`, `1`). -/
def subEdgeOf (e : EdgeIn) : SubEdge :=
  ⟨e.edge_id.getD "", e.relationship.getD "unknown", e.weight.getD 1⟩

/-- `build.merge_edges`: group the input edges by the *ordered* key
`(source, target)` (dict insertion order), then emit one record per key with
the accumulated sub-edge list and `round(sum(weights)/len(weights), 2)`
(`0` when the weight list is empty).  Accumulating the transformed records
and weights edge by edge, as the source does, yields exactly the map over
the grouped list. -/
def mergeEdges (es : List EdgeIn) : List EdgeOut :=
  (ogroup (fun e => (e.source, e.target)) es).map
    (fun p =>
      let ws := p.2.map (fun e => (subEdgeOf e).weight)
      let avg : ℚ := if ws.length = 0 then 0 else ws.sum / (ws.length : ℚ)
      ⟨p.1.1, p.1.2, p.2.map subEdgeOf, pyRoundTo 2 avg⟩)

deriving instance DecidableEq for Except

/-! ## Concrete runs used to instantiate the run-level theorems -/

/-- A two-file world where both files exist and have distinct contents. -/
def demoEnv : Env :=
  { fs := fun p => if p = "a" then some [0] else some [1],
    shaFn := fun bs => if bs = [0] then "h0" else "h1",
    pagesFn := fun _ => none,
    rawText := fun _ => [],
    mhFn := fun _ => [],
    nameFn := fun p => p }

/-- An LSH oracle that always reports both files as candidates. -/
def demoQuery : String → List String := fun _ => ["a", "b"]

/-- The items `scanAll demoEnv ["a", "b"]` produces. -/
def demoItems : List Item :=
  [⟨"a", "a", 1, "h0", [], none, []⟩, ⟨"b", "b", 1, "h1", [], none, []⟩]

/-- The report of the demo run (one `near` group, no singletons). -/
def demoReport : Report :=
  buildReportPure ["a", "b"] demoItems (mkRat 9 10) (mkRat 3 5) 0 demoQuery

/-- A world where `missing.pdf` does not exist but `other.pdf` does. -/
def missEnv : Env :=
  { fs := fun p => if p = "missing.pdf" then none else some [],
    shaFn := fun _ => "h", pagesFn := fun _ => none, rawText := fun _ => [],
    mhFn := fun _ => [], nameFn := fun p => p }

/-- A one-file world whose MinHash signature is the nonempty vector `[5, 7]`. -/
def sigEnv : Env :=
  { fs := fun _ => some [], shaFn := fun _ => "h", pagesFn := fun _ => none,
    rawText := fun _ => [], mhFn := fun _ => [5, 7], nameFn := fun p => p }

/-! ## C8: refinement admission is antitone in the partial threshold -/

/-- C8: for a fixed anchor and fixed candidate list, any candidate admitted
by the refinement step at partial threshold `t'` is also admitted at any
lower threshold `t ≤ t'`; raising the threshold never adds a member. -/
theorem refine_admission_antitone (anchor : Item) (cands : List Item) (t t' : ℚ)
    (h : t ≤ t') (c : Item) (hc : c ∈ refineAdmit anchor cands t') :
    c ∈ refineAdmit anchor cands t := by
  rcases List.mem_filter.mp hc with ⟨h1, h2⟩
  refine List.mem_filter.mpr ⟨h1, ?_⟩
  simp only [decide_eq_true_eq] at h2 ⊢
  exact le_trans h h2

/-- Item used by the witness below. -/
def wAnchor : Item := ⟨"a", "a", 0, "h", [], none, []⟩

/-- Item used by the witness below. -/
def wCand : Item := ⟨"c", "c", 0, "h", [], none, []⟩

/-- Witness for `refine_admission_antitone` at thresholds `1/2 ≤ 3/5`. -/
theorem refine_admission_antitone_witness :
    (mkRat 1 2 ≤ mkRat 3 5) ∧ wCand ∈ refineAdmit wAnchor [wCand] (mkRat 3 5) ∧
      wCand ∈ refineAdmit wAnchor [wCand] (mkRat 1 2) :=
  ⟨by decide, by decide,
    refine_admission_antitone wAnchor [wCand] (mkRat 1 2) (mkRat 3 5) (by decide) wCand
      (by decide)⟩

/-! ## C3: a missing file is not tolerated by build_report -/

/-- C3 (code behaviour at the failing input): with `missing.pdf` absent from
the file system, `build_report` does *not* continue the scan with
`size = 0`/`pages = None`: `sha256_file` opens the file with no exception
handler, so the run aborts with the `FileNotFoundError` raised for
`missing.pdf`, and `other.pdf` is never processed into a report. -/
theorem buildReport_missing_file_aborts :
    buildReportE missEnv ["missing.pdf", "other.pdf"] (mkRat 9 10) (mkRat 3 5) 0
        (fun _ => []) = Except.error "missing.pdf" := by decide

/-! ## C2: report entries and the raw MinHash signature -/

/-- C2 counterexample: the claim says no singleton entry of the report
carries the signature vector, but in this concrete run the single
singleton entry's `minhash` field is exactly the (nonempty) signature
`[5, 7]` computed for the file. -/
theorem report_singleton_includes_signature_cex :
    (buildReportE sigEnv ["a.pdf"] (mkRat 9 10) (mkRat 3 5) 0 (fun _ => [])).map
        (fun r => r.singletons.map (fun s => s.minhash)) = Except.ok [[5, 7]] ∧
      ([5, 7] : List Nat) ≠ [] :=
  ⟨by decide, by decide⟩

/-! ## C5: canonicalize_person resolves iff the best alias score reaches 0.85 -/

/-- `if m < s then s else m` is `max m s`. -/
lemma ite_lt_eq_max (m s : ℚ) : (if m < s then s else m) = max m s := by
  rcases le_or_lt s m with h | h
  · rw [if_neg (not_lt.mpr h), max_eq_left h]
  · rw [if_pos h, max_eq_right h.le]

/-- The score component of the inner alias loop is the running maximum. -/
lemma canonInner_snd (norm : Str) (p : Person) (l : List Str) (acc : Option Person × ℚ) :
    (l.foldl
        (fun a al =>
          if a.2 < scorePerson norm al then (some p, scorePerson norm al) else a) acc).2 =
      l.foldl (fun m al => max m (scorePerson norm al)) acc.2 := by
  induction l generalizing acc with
  | nil => rfl
  | cons a l ih =>
    simp only [List.foldl_cons]
    rw [ih]
    by_cases h : acc.2 < scorePerson norm a
    · rw [if_pos h, ← ite_lt_eq_max, if_pos h]
    · rw [if_neg h, ← ite_lt_eq_max, if_neg h]

/-- The score component of the whole canonicalization fold is the running
maximum of `bestAliasScore`'s fold. -/
lemma canonFold_snd (norm : Str) (idx : List Person) (acc : Option Person × ℚ) :
    (idx.foldl (canonStep norm) acc).2 =
      idx.foldl (fun m p => p.names.foldl (fun m2 al => max m2 (scorePerson norm al)) m)
        acc.2 := by
  induction idx generalizing acc with
  | nil => rfl
  | cons p idx ih =>
    simp only [List.foldl_cons]
    rw [ih, canonStep, canonInner_snd]

/-- The inner alias loop either leaves the accumulator unchanged or records
the current person with a strictly larger score. -/
lemma canonInner_cases (norm : Str) (p : Person) (l : List Str) (acc : Option Person × ℚ) :
    (l.foldl
        (fun a al =>
          if a.2 < scorePerson norm al then (some p, scorePerson norm al) else a) acc) = acc ∨
      ((l.foldl
          (fun a al =>
            if a.2 < scorePerson norm al then (some p, scorePerson norm al) else a) acc).1 =
        some p ∧
          acc.2 <
            (l.foldl
              (fun a al =>
                if a.2 < scorePerson norm al then (some p, scorePerson norm al) else a) acc).2) := by
  induction l generalizing acc with
  | nil => exact Or.inl rfl
  | cons a l ih =>
    simp only [List.foldl_cons]
    by_cases h : acc.2 < scorePerson norm a
    · rw [if_pos h]
      rcases ih (some p, scorePerson norm a) with h2 | h2
      · rw [h2]; exact Or.inr ⟨rfl, h⟩
      · exact Or.inr ⟨h2.1, lt_trans h h2.2⟩
    · rw [if_neg h]
      exact ih acc

/-- The canonicalization fold either leaves the accumulator unchanged or
ends with a recorded match and a strictly larger score. -/
lemma canonFold_cases (norm : Str) (idx : List Person) (acc : Option Person × ℚ) :
    idx.foldl (canonStep norm) acc = acc ∨
      ((∃ q, (idx.foldl (canonStep norm) acc).1 = some q) ∧
        acc.2 < (idx.foldl (canonStep norm) acc).2) := by
  induction idx generalizing acc with
  | nil => exact Or.inl rfl
  | cons p idx ih =>
    simp only [List.foldl_cons]
    rcases canonInner_cases norm p p.names acc with h | h
    · rw [show canonStep norm acc p = acc from h]
      exact ih acc
    · rcases ih (canonStep norm acc p) with h2 | h2
      · rw [h2]
        exact Or.inr ⟨⟨p, h.1⟩, h.2⟩
      · exact Or.inr ⟨h2.1, lt_trans h.2 h2.2⟩

/-- C5: `canonicalize_person` (with its default threshold `0.85 = 17/20`)
returns a non-null identity id if and only if the best fuzzy-match score of
the candidate over all aliases of all known identities is at least `17/20`;
in particular a best score of exactly `17/20` resolves (the comparison is
`>=`) and any smaller score does not. -/
theorem canonicalize_resolves_iff_best_score (name : Str) (idx : List Person) :
    (canonicalizePerson name idx (mkRat 17 20)).id.isSome = true ↔
      mkRat 17 20 ≤ bestAliasScore name idx := by
  unfold canonicalizePerson bestAliasScore
  have hsnd := canonFold_snd (normalizeText (stripMiddleInitial name)) idx (none, 0)
  rcases canonFold_cases (normalizeText (stripMiddleInitial name)) idx (none, 0) with h | h
  · rw [← hsnd, h]
    simp only [h]
    constructor
    · intro hc; cases hc
    · intro hc; exact absurd hc (by decide)
  · rcases h with ⟨⟨q, hq⟩, hlt⟩
    rw [← hsnd]
    simp only [hq]
    by_cases hth :
        mkRat 17 20 ≤
          (idx.foldl (canonStep (normalizeText (stripMiddleInitial name))) (none, 0)).2
    · simp only [if_pos hth]
      exact iff_of_true rfl hth
    · simp only [if_neg hth]
      exact iff_of_false (by simp) hth

/-! ## C6: cluster_people and the 0.85 boundary -/

/-- C6 counterexample: these two 20-character names score exactly
`0.85 = 17/20` against each other (a common 17-character block out of 40
total characters), yet `cluster_people` puts the second into a *new*
cluster instead of joining the first, because the source compares with the
strict `> 0.85`. -/
theorem cluster_people_exact_threshold_cex :
    scorePerson "abcdefghijklmnopquvw".toList "abcdefghijklmnopqrst".toList = mkRat 17 20 ∧
      clusterPeople ["abcdefghijklmnopqrst".toList, "abcdefghijklmnopquvw".toList] =
        [["abcdefghijklmnopqrst".toList], ["abcdefghijklmnopquvw".toList]] :=
  ⟨by decide, by decide⟩

/-- The spec-style placement rule with the *strict* threshold actually used
by the source: the name joins the first cluster (if any) whose first member
scores strictly more than `0.85` against it, and starts a new cluster
otherwise. -/
def placeStrict (cs : List (List Str)) (name : Str) : List (List Str) :=
  match cs.findIdx? (fun c => decide (mkRat 17 20 < scorePerson name (c.headD []))) with
  | some i => cs.set i ((cs.getD i []) ++ [name])
  | none => cs ++ [[name]]

/-- The linear search of `cluster_people` appends the name at the first
index whose cluster head scores strictly above the threshold. -/
lemma addToFirst_eq (name : Str) (cs : List (List Str)) :
    addToFirst name cs =
      (cs.findIdx? (fun c => decide (mkRat 17 20 < scorePerson name (c.headD [])))).map
        (fun i => cs.set i ((cs.getD i []) ++ [name])) := by
  induction cs with
  | nil => rfl
  | cons c cs ih =>
    rw [addToFirst, List.findIdx?_cons]
    by_cases h : mkRat 17 20 < scorePerson name (c.headD [])
    · rw [if_pos h, if_pos (by simpa using h)]
      rfl
    · rw [if_neg h, if_neg (by simpa using h), ih, List.findIdx?_succ,
        Option.map_map, Option.map_map]
      cases List.findIdx? (fun c => decide (mkRat 17 20 < scorePerson name (c.headD []))) cs with
      | none => rfl
      | some i => rfl

/-- C6 (amended): `cluster_people` places each name into the first existing
cluster whose first member scores *strictly more than* `0.85` against it and
starts a new cluster otherwise; in particular (see the counterexample) a
name scoring exactly `0.85` starts a new cluster. -/
theorem cluster_people_strict_threshold (l : List Str) :
    clusterPeople l = l.foldl placeStrict [] := by
  unfold clusterPeople
  have hfun :
      (fun (cs : List (List Str)) (n : Str) => (addToFirst n cs).getD (cs ++ [[n]])) =
        placeStrict := by
    funext cs n
    rw [addToFirst_eq, placeStrict]
    cases hidx : cs.findIdx? (fun c => decide (mkRat 17 20 < scorePerson n (c.headD []))) with
    | none => rfl
    | some i => rfl
  rw [hfun]

/-! ## C7: normalize_text is idempotent -/

/-- No two adjacent white-space characters. -/
def wsRel (a b : Char) : Prop := ¬(isPySpace a = true ∧ isPySpace b = true)

/-- No lower-case letter immediately followed by an upper-case letter. -/
def camelRel (a b : Char) : Prop := ¬(isLowerAscii a = true ∧ isUpperAscii b = true)

/-- Every white-space character of the list is a plain space. -/
def WsIsSpace (l : Str) : Prop := ∀ c ∈ l, isPySpace c = true → c = ' '

lemma space_class {c : Char} (h : isPySpace c = true) :
    isLowerAscii c = false ∧ isUpperAscii c = false := by
  have hm : c ∈ pySpaceChars := by simpa [isPySpace] using h
  fin_cases hm <;> exact ⟨by decide, by decide⟩

lemma lower_not_space {c : Char} (h : isLowerAscii c = true) : isPySpace c = false := by
  cases hsp : isPySpace c with
  | false => rfl
  | true => exact absurd h (by simp [(space_class hsp).1])

lemma upper_not_space {c : Char} (h : isUpperAscii c = true) : isPySpace c = false := by
  cases hsp : isPySpace c with
  | false => rfl
  | true => exact absurd h (by simp [(space_class hsp).2])

lemma upper_not_lower {c : Char} (h : isUpperAscii c = true) : isLowerAscii c = false := by
  simp only [isUpperAscii, decide_eq_true_eq] at h
  cases hlo : isLowerAscii c with
  | false => rfl
  | true =>
    simp only [isLowerAscii, decide_eq_true_eq] at hlo
    exact absurd (le_trans hlo.1 h.2) (by decide)

lemma collapseAux_sp_true {c : Char} (rest : Str) (h : isPySpace c = true) :
    collapseAux true (c :: rest) = collapseAux true rest := by
  simp [collapseAux, h]

lemma collapseAux_sp_false {c : Char} (rest : Str) (h : isPySpace c = true) :
    collapseAux false (c :: rest) = ' ' :: collapseAux true rest := by
  simp [collapseAux, h]

lemma collapseAux_nonsp {c : Char} (b : Bool) (rest : Str) (h : ¬isPySpace c = true) :
    collapseAux b (c :: rest) = c :: collapseAux false rest := by
  simp [collapseAux, h]

lemma insertCamel_pos {a b : Char} (rest : Str)
    (h : (isLowerAscii a && isUpperAscii b) = true) :
    insertCamel (a :: b :: rest) = a :: ' ' :: b :: insertCamel rest := by
  simp [insertCamel, h]

lemma insertCamel_neg {a b : Char} (rest : Str)
    (h : ¬(isLowerAscii a && isUpperAscii b) = true) :
    insertCamel (a :: b :: rest) = a :: insertCamel (b :: rest) := by
  simp only [insertCamel, if_neg h]

/-- Every white-space character the collapse step emits is a plain space. -/
lemma collapseAux_ws (b : Bool) (l : Str) : WsIsSpace (collapseAux b l) := by
  induction l generalizing b with
  | nil => intro c hc; cases hc
  | cons c rest ih =>
    intro d hd hsp
    by_cases hc : isPySpace c = true
    · cases b with
      | true =>
        rw [collapseAux_sp_true rest hc] at hd
        exact ih true d hd hsp
      | false =>
        rw [collapseAux_sp_false rest hc] at hd
        rcases List.mem_cons.mp hd with rfl | hd2
        · rfl
        · exact ih true d hd2 hsp
    · rw [collapseAux_nonsp b rest hc] at hd
      rcases List.mem_cons.mp hd with rfl | hd2
      · exact absurd hsp hc
      · exact ih false d hd2 hsp

/-- After skipping a white-space run the next emitted character is not
white space. -/
lemma collapseAux_true_head (l : Str) :
    ∀ d ∈ (collapseAux true l).head?, isPySpace d = false := by
  induction l with
  | nil => intro d hd; cases hd
  | cons c rest ih =>
    intro d hd
    by_cases hc : isPySpace c = true
    · rw [collapseAux_sp_true rest hc] at hd
      exact ih d hd
    · rw [collapseAux_nonsp true rest hc, List.head?_cons] at hd
      have : d = c := by simpa [eq_comm] using hd
      rw [this]
      exact Bool.not_eq_true _ ▸ (by simpa using hc)

/-- The collapse step never emits two adjacent white-space characters. -/
lemma collapseAux_chain (b : Bool) (l : Str) : (collapseAux b l).Chain' wsRel := by
  induction l generalizing b with
  | nil => exact List.chain'_nil
  | cons c rest ih =>
    by_cases hc : isPySpace c = true
    · cases b with
      | true => rw [collapseAux_sp_true rest hc]; exact ih true
      | false =>
        rw [collapseAux_sp_false rest hc]
        refine List.chain'_cons'.mpr ⟨?_, ih true⟩
        intro d hd hand
        simp [collapseAux_true_head rest d hd] at hand
    · rw [collapseAux_nonsp b rest hc]
      refine List.chain'_cons'.mpr ⟨?_, ih false⟩
      intro d hd hand
      exact hc hand.1

/-- The camel-break step keeps the head of the string. -/
lemma insertCamel_head (l : Str) : (insertCamel l).head? = l.head? := by
  induction l using insertCamel.induct with
  | case1 => rfl
  | case2 a => rfl
  | case3 a b rest h ih => rw [insertCamel_pos rest h]; rfl
  | case4 a b rest h ih => rw [insertCamel_neg rest h]; rfl

/-- Every character emitted by the camel-break step is a space or comes
from the input. -/
lemma insertCamel_mem {c : Char} {l : Str} (h : c ∈ insertCamel l) : c = ' ' ∨ c ∈ l := by
  induction l using insertCamel.induct with
  | case1 => cases h
  | case2 a => exact Or.inr h
  | case3 a b rest hc ih =>
    rw [insertCamel_pos rest hc] at h
    rcases List.mem_cons.mp h with rfl | h2
    · simp
    rcases List.mem_cons.mp h2 with rfl | h3
    · exact Or.inl rfl
    rcases List.mem_cons.mp h3 with rfl | h4
    · simp
    · rcases ih h4 with h5 | h5
      · exact Or.inl h5
      · simp [h5]
  | case4 a b rest hc ih =>
    rw [insertCamel_neg rest hc] at h
    rcases List.mem_cons.mp h with rfl | h2
    · simp
    · rcases ih h2 with h5 | h5
      · exact Or.inl h5
      · exact Or.inr (List.mem_cons_of_mem a h5)

/-- The camel-break step preserves `WsIsSpace`. -/
lemma insertCamel_ws {l : Str} (h : WsIsSpace l) : WsIsSpace (insertCamel l) := by
  intro c hc hsp
  rcases insertCamel_mem hc with rfl | hmem
  · rfl
  · exact h c hmem hsp

/-- The camel-break step preserves the absence of white-space runs. -/
lemma insertCamel_chain_ws {l : Str} (h : l.Chain' wsRel) :
    (insertCamel l).Chain' wsRel := by
  induction l using insertCamel.induct with
  | case1 => exact List.chain'_nil
  | case2 a => exact List.chain'_singleton a
  | case3 a b rest hc ih =>
    have hab : isLowerAscii a = true ∧ isUpperAscii b = true := by simpa using hc
    rw [insertCamel_pos rest hc]
    refine List.chain'_cons'.mpr ⟨?_, List.chain'_cons'.mpr ⟨?_, List.chain'_cons'.mpr
      ⟨?_, ih h.tail.tail⟩⟩⟩
    · intro d hd hand
      simp [lower_not_space hab.1] at hand
    · intro d hd hand
      have hdb : d = b := by simpa [eq_comm] using hd
      rw [hdb] at hand
      simp [upper_not_space hab.2] at hand
    · intro d hd hand
      simp [upper_not_space hab.2] at hand
  | case4 a b rest hc ih =>
    rw [insertCamel_neg rest hc]
    refine List.chain'_cons'.mpr ⟨?_, ih h.tail⟩
    intro d hd
    rw [insertCamel_head (b :: rest)] at hd
    have hdb : d = b := by simpa [eq_comm] using hd
    rw [hdb]
    exact (List.chain'_cons'.mp h).1 b (by simp)

/-- The output of the camel-break step has no lower-upper adjacency left. -/
lemma insertCamel_nocamel (l : Str) : (insertCamel l).Chain' camelRel := by
  induction l using insertCamel.induct with
  | case1 => exact List.chain'_nil
  | case2 a => exact List.chain'_singleton a
  | case3 a b rest hc ih =>
    have hab : isLowerAscii a = true ∧ isUpperAscii b = true := by simpa using hc
    rw [insertCamel_pos rest hc]
    refine List.chain'_cons'.mpr ⟨?_, List.chain'_cons'.mpr ⟨?_, List.chain'_cons'.mpr
      ⟨?_, ih⟩⟩⟩
    · intro d hd hand
      have hdb : d = ' ' := by simpa [eq_comm] using hd
      rw [hdb] at hand
      exact absurd hand.2 (by decide)
    · intro d hd hand
      exact absurd hand.1 (by decide)
    · intro d hd hand
      simp [upper_not_lower hab.2] at hand
  | case4 a b rest hc ih =>
    rw [insertCamel_neg rest hc]
    refine List.chain'_cons'.mpr ⟨?_, ih⟩
    intro d hd
    rw [insertCamel_head (b :: rest)] at hd
    have hdb : d = b := by simpa [eq_comm] using hd
    rw [hdb]
    intro hand
    exact hc (by simp [hand.1, hand.2])

/-- On a string with no lower-upper adjacency the camel-break step is the
identity. -/
lemma insertCamel_id {l : Str} (h : l.Chain' camelRel) : insertCamel l = l := by
  induction l using insertCamel.induct with
  | case1 => rfl
  | case2 a => rfl
  | case3 a b rest hc ih =>
    have hab : isLowerAscii a = true ∧ isUpperAscii b = true := by simpa using hc
    exact absurd hab ((List.chain'_cons'.mp h).1 b (by simp))
  | case4 a b rest hc ih =>
    rw [insertCamel_neg rest hc, ih h.tail]

/-- The first character surviving `dropWhile` fails the predicate. -/
lemma dropWhile_head_false (p : Char → Bool) (l : Str) :
    ∀ d ∈ (l.dropWhile p).head?, p d = false := by
  induction l with
  | nil => intro d hd; cases hd
  | cons c rest ih =>
    intro d hd
    by_cases hp : p c = true
    · rw [List.dropWhile_cons, if_pos hp] at hd
      exact ih d hd
    · rw [List.dropWhile_cons, if_neg hp, List.head?_cons] at hd
      have : d = c := by simpa [eq_comm] using hd
      rw [this]
      simpa using hp

lemma mem_lstrip {c : Char} {l : Str} (h : c ∈ lstrip l) : c ∈ l :=
  (List.dropWhile_sublist _).subset h

lemma mem_rstrip {c : Char} {l : Str} (h : c ∈ rstrip l) : c ∈ l := by
  rw [rstrip] at h
  exact List.mem_reverse.mp ((List.dropWhile_sublist _).subset (List.mem_reverse.mp h))

lemma chain_lstrip {R : Char → Char → Prop} {l : Str} (h : l.Chain' R) :
    (lstrip l).Chain' R :=
  h.suffix (List.dropWhile_suffix _)

lemma chain_rstrip {R : Char → Char → Prop} {l : Str} (h : l.Chain' R) :
    (rstrip l).Chain' R := by
  rw [rstrip, List.chain'_reverse]
  exact (List.chain'_reverse.mpr h).suffix (List.dropWhile_suffix _)

lemma chain_pyStrip {R : Char → Char → Prop} {l : Str} (h : l.Chain' R) :
    (pyStrip l).Chain' R :=
  chain_rstrip (chain_lstrip h)

lemma ws_pyStrip {l : Str} (h : WsIsSpace l) : WsIsSpace (pyStrip l) :=
  fun c hc hsp => h c (mem_lstrip (mem_rstrip hc)) hsp

/-- `rstrip` keeps an initial segment of the string. -/
lemma rstrip_prefix_decomp (l : Str) : ∃ t, rstrip l ++ t = l := by
  obtain ⟨t, ht⟩ := List.dropWhile_suffix (l := l.reverse) isPySpace
  refine ⟨t.reverse, ?_⟩
  have h2 : (t ++ l.reverse.dropWhile isPySpace).reverse = l.reverse.reverse := by rw [ht]
  simpa [List.reverse_append, rstrip] using h2

/-- The stripped string does not start with white space. -/
lemma pyStrip_head (l : Str) : ∀ d ∈ (pyStrip l).head?, isPySpace d = false := by
  intro d hd
  obtain ⟨t, ht⟩ := rstrip_prefix_decomp (lstrip l)
  rw [pyStrip] at hd
  cases hcase : rstrip (lstrip l) with
  | nil => rw [hcase] at hd; cases hd
  | cons c rest =>
    have hdc : d = c := by rw [hcase] at hd; simpa [eq_comm] using hd
    rw [hcase] at ht
    have hh : (lstrip l).head? = some c := by rw [← ht]; rfl
    have h2 : isPySpace c = false :=
      dropWhile_head_false isPySpace l c (by simp [lstrip] at hh; simp [hh])
    rw [hdc]; exact h2

/-- The stripped string does not end with white space. -/
lemma pyStrip_last (l : Str) : ∀ d ∈ (pyStrip l).reverse.head?, isPySpace d = false := by
  intro d hd
  rw [show (pyStrip l).reverse = (lstrip l).reverse.dropWhile isPySpace from by
    simp [pyStrip, rstrip]] at hd
  exact dropWhile_head_false isPySpace (lstrip l).reverse d hd

lemma lstrip_id {l : Str} (h : ∀ d ∈ l.head?, isPySpace d = false) : lstrip l = l := by
  cases l with
  | nil => rfl
  | cons c rest =>
    have hc := h c rfl
    rw [lstrip, List.dropWhile_cons, if_neg (by simp [hc])]

lemma rstrip_id {l : Str} (h : ∀ d ∈ l.reverse.head?, isPySpace d = false) :
    rstrip l = l := by
  rw [rstrip, show l.reverse.dropWhile isPySpace = l.reverse from lstrip_id h,
    List.reverse_reverse]

lemma pyStrip_id {l : Str} (h1 : ∀ d ∈ l.head?, isPySpace d = false)
    (h2 : ∀ d ∈ l.reverse.head?, isPySpace d = false) : pyStrip l = l := by
  rw [pyStrip, lstrip_id h1, rstrip_id h2]

/-- A string whose white space is all plain spaces has no newline to
replace. -/
lemma replaceNl_id {l : Str} (h : WsIsSpace l) : replaceNl l = l := by
  induction l with
  | nil => rfl
  | cons c rest ih =>
    rw [replaceNl, List.map_cons]
    have htail : replaceNl rest = rest := ih (fun d hd => h d (List.mem_cons_of_mem c hd))
    rw [replaceNl] at htail
    rw [htail]
    congr 1
    by_cases hc : c = '\n'
    · subst hc
      exact absurd (h '\n' (by simp) (by decide)) (by decide)
    · simp [hc]

/-- On a string with single-space white space and no runs the collapse step
is the identity (the `true` flag additionally needs a non-space head). -/
lemma collapseAux_id {l : Str} (hws : WsIsSpace l) (hch : l.Chain' wsRel) :
    collapseAux false l = l ∧
      ((∀ d ∈ l.head?, isPySpace d = false) → collapseAux true l = l) := by
  induction l with
  | nil => exact ⟨rfl, fun _ => rfl⟩
  | cons c rest ih =>
    have hwsr : WsIsSpace rest := fun d hd => hws d (List.mem_cons_of_mem c hd)
    have ihr := ih hwsr hch.tail
    by_cases hc : isPySpace c = true
    · have hcsp : c = ' ' := hws c (by simp) hc
      have hresthead : ∀ d ∈ rest.head?, isPySpace d = false := by
        intro d hd
        cases hsd : isPySpace d with
        | false => rfl
        | true => exact absurd ⟨hc, hsd⟩ ((List.chain'_cons'.mp hch).1 d hd)
      constructor
      · rw [collapseAux_sp_false rest hc, ihr.2 hresthead, hcsp]
      · intro hhead
        exact absurd hc (by simp [hhead c rfl])
    · constructor
      · rw [collapseAux_nonsp false rest hc, ihr.1]
      · intro _
        rw [collapseAux_nonsp true rest hc, ihr.1]

/-- C7: text normalization is idempotent: applying `normalize_text` twice
yields the same result as applying it once. -/
theorem normalize_text_idempotent (s : Str) :
    normalizeText (normalizeText s) = normalizeText s := by
  have hws : WsIsSpace (normalizeText s) :=
    ws_pyStrip (insertCamel_ws (collapseAux_ws false (replaceNl s)))
  have hchain : (normalizeText s).Chain' wsRel :=
    chain_pyStrip (insertCamel_chain_ws (collapseAux_chain false (replaceNl s)))
  have hcamel : (normalizeText s).Chain' camelRel :=
    chain_pyStrip (insertCamel_nocamel (collapseWs (replaceNl s)))
  have hhead := pyStrip_head (insertCamel (collapseWs (replaceNl s)))
  have hlast := pyStrip_last (insertCamel (collapseWs (replaceNl s)))
  show pyStrip (insertCamel (collapseWs (replaceNl (normalizeText s)))) = normalizeText s
  rw [replaceNl_id hws,
    show collapseWs (normalizeText s) = normalizeText s from (collapseAux_id hws hchain).1,
    insertCamel_id hcamel]
  exact pyStrip_id hhead hlast

/-! ## C9: similarity is bounded, 1.0 on two empties, and not symmetric -/

/-- The best block lies inside the region `[alo, ahi) × [blo, bhi)`. -/
def BestIn (alo ahi blo bhi : Nat) (t : Nat × Nat × Nat) : Prop :=
  alo ≤ t.1 ∧ t.1 + t.2.2 ≤ ahi ∧ blo ≤ t.2.1 ∧ t.2.1 + t.2.2 ≤ bhi

lemma alistGetD_cases (m : List (Nat × Nat)) (k d : Nat) :
    alistGetD m k d = d ∨ (k, alistGetD m k d) ∈ m := by
  unfold alistGetD
  cases hf : m.find? (fun p => p.1 == k) with
  | none => exact Or.inl rfl
  | some p =>
    right
    have h1 : p.1 = k := by simpa using List.find?_some hf
    have h2 := List.mem_of_find?_eq_some hf
    rw [← h1]
    exact Prod.mk.eta ▸ h2

lemma alistSet_mem {P : Nat × Nat → Prop} {m : List (Nat × Nat)} {k v : Nat}
    (hm : ∀ p ∈ m, P p) (hkv : P (k, v)) : ∀ p ∈ alistSet m k v, P p := by
  intro p hp
  unfold alistSet at hp
  by_cases h : m.any (fun q => q.1 == k)
  · rw [if_pos h] at hp
    rcases List.mem_map.mp hp with ⟨q, hq, hqe⟩
    by_cases hq1 : (q.1 == k) = true
    · rw [if_pos hq1] at hqe
      rw [← hqe]; exact hkv
    · rw [if_neg hq1] at hqe
      rw [← hqe]; exact hm q hq
  · rw [if_neg h] at hp
    rcases List.mem_append.mp hp with h2 | h2
    · exact hm p h2
    · have : p = (k, v) := by simpa using h2
      rw [this]; exact hkv

/-- The inner loop of `find_longest_match` keeps run lengths bounded by the
row and column offsets, and the best block inside the region. -/
lemma flmInner_inv {alo ahi blo bhi i : Nat}
    (hi1 : alo ≤ i) (hi2 : i < ahi)
    (prev : List (Nat × Nat))
    (hprev : ∀ p ∈ prev, p.2 + alo ≤ i ∧ p.2 + blo ≤ p.1 + 1) :
    ∀ (js : List Nat) (newm : List (Nat × Nat)) (best : Nat × Nat × Nat),
      (∀ p ∈ newm, p.2 + alo ≤ i + 1 ∧ p.2 + blo ≤ p.1 + 1) →
      BestIn alo ahi blo bhi best →
      (∀ p ∈ (flmInner i blo bhi prev js newm best).1,
          p.2 + alo ≤ i + 1 ∧ p.2 + blo ≤ p.1 + 1) ∧
        BestIn alo ahi blo bhi (flmInner i blo bhi prev js newm best).2 := by
  intro js
  induction js with
  | nil => intro newm best hnew hbest; exact ⟨hnew, hbest⟩
  | cons j js ih =>
    intro newm best hnew hbest
    simp only [flmInner]
    by_cases hj1 : j < blo
    · rw [if_pos hj1]
      exact ih newm best hnew hbest
    · rw [if_neg hj1]
      by_cases hj2 : bhi ≤ j
      · rw [if_pos hj2]
        exact ⟨hnew, hbest⟩
      · rw [if_neg hj2]
        set kk := (if j = 0 then 0 else alistGetD prev (j - 1) 0) + 1 with hkk
        have hk1 : kk + alo ≤ i + 1 ∧ kk + blo ≤ j + 1 := by
          by_cases hj0 : j = 0
          · rw [hkk, if_pos hj0]
            omega
          · rw [hkk, if_neg hj0]
            rcases alistGetD_cases prev (j - 1) 0 with hv | hv
            · rw [hv]; omega
            · have h3 := hprev _ hv
              omega
        apply ih
        · exact alistSet_mem hnew ⟨hk1.1, hk1.2⟩
        · by_cases hb : best.2.2 < kk
          · rw [if_pos hb]
            refine ⟨?_, ?_, ?_, ?_⟩ <;> simp only [] <;> omega
          · rw [if_neg hb]
            exact hbest

/-- The row loop of `find_longest_match` keeps the best block inside the
region. -/
lemma flmRows_inv (a : Str) (b2j : List (Char × List Nat)) {alo ahi blo bhi : Nat} :
    ∀ (n s : Nat) (prev : List (Nat × Nat)) (best : Nat × Nat × Nat),
      alo ≤ s → s + n ≤ ahi →
      (∀ p ∈ prev, p.2 + alo ≤ s ∧ p.2 + blo ≤ p.1 + 1) →
      BestIn alo ahi blo bhi best →
      BestIn alo ahi blo bhi (flmRows a b2j blo bhi (List.range' s n) prev best) := by
  intro n
  induction n with
  | zero => intro s prev best _ _ _ hbest; exact hbest
  | succ n ih =>
    intro s prev best hs hsn hprev hbest
    rw [show List.range' s (n + 1) = s :: List.range' (s + 1) n from rfl]
    simp only [flmRows]
    have hinner := @flmInner_inv alo ahi blo bhi s hs (by omega) prev hprev
      (b2jLookup b2j (a.getD s ' ')) [] best (by intro p hp; cases hp) hbest
    exact ih (s + 1) _ _ (by omega) (by omega)
      (by intro p hp; have := hinner.1 p hp; omega) hinner.2

/-- The left-extension loop keeps the best block inside the region. -/
lemma extendLeft_inv (a b : Str) (alo blo : Nat) {ahi bhi : Nat} :
    ∀ (fuel besti bestj bestsize : Nat),
      alo ≤ besti → besti + bestsize ≤ ahi → blo ≤ bestj → bestj + bestsize ≤ bhi →
      BestIn alo ahi blo bhi (extendLeft a b alo blo fuel besti bestj bestsize) := by
  intro fuel
  induction fuel with
  | zero => intro besti bestj bestsize h1 h2 h3 h4; exact ⟨h1, h2, h3, h4⟩
  | succ fuel ih =>
    intro besti bestj bestsize h1 h2 h3 h4
    simp only [extendLeft]
    by_cases h : alo < besti ∧ blo < bestj ∧
        a.getD (besti - 1) ' ' = b.getD (bestj - 1) ' '
    · rw [if_pos h]
      obtain ⟨ha, hb, -⟩ := h
      exact ih (besti - 1) (bestj - 1) (bestsize + 1) (by omega) (by omega) (by omega)
        (by omega)
    · rw [if_neg h]
      exact ⟨h1, h2, h3, h4⟩

/-- The right-extension loop keeps the block end inside the region. -/
lemma extendRight_le (a b : Str) (ahi bhi : Nat) :
    ∀ (fuel besti bestj bestsize : Nat),
      besti + bestsize ≤ ahi → bestj + bestsize ≤ bhi →
      besti + extendRight a b ahi bhi fuel besti bestj bestsize ≤ ahi ∧
        bestj + extendRight a b ahi bhi fuel besti bestj bestsize ≤ bhi := by
  intro fuel
  induction fuel with
  | zero => intro besti bestj bestsize h1 h2; exact ⟨h1, h2⟩
  | succ fuel ih =>
    intro besti bestj bestsize h1 h2
    simp only [extendRight]
    by_cases h : besti + bestsize < ahi ∧ bestj + bestsize < bhi ∧
        a.getD (besti + bestsize) ' ' = b.getD (bestj + bestsize) ' '
    · rw [if_pos h]
      obtain ⟨ha, hb, -⟩ := h
      exact ih besti bestj (bestsize + 1) (by omega) (by omega)
    · rw [if_neg h]
      exact ⟨h1, h2⟩

/-- `find_longest_match` returns a block inside its region. -/
lemma findLongestMatch_in (a b : Str) (b2j : List (Char × List Nat))
    {alo ahi blo bhi : Nat} (h1 : alo ≤ ahi) (h2 : blo ≤ bhi) :
    BestIn alo ahi blo bhi (findLongestMatch a b b2j alo ahi blo bhi) := by
  have hrows := @flmRows_inv a b2j alo ahi blo bhi
    (ahi - alo) alo [] (alo, blo, 0) le_rfl (by omega)
    (fun p hp => absurd hp (List.not_mem_nil p))
    ⟨le_rfl, by simpa using h1, le_rfl, by simpa using h2⟩
  set best := flmRows a b2j blo bhi (List.range' alo (ahi - alo)) [] (alo, blo, 0)
    with hbestdef
  obtain ⟨hr1, hr2, hr3, hr4⟩ := hrows
  have hleft := @extendLeft_inv a b alo blo ahi bhi
    best.1 best.1 best.2.1 best.2.2 hr1 hr2 hr3 hr4
  set l := extendLeft a b alo blo best.1 best.1 best.2.1 best.2.2 with hldef
  obtain ⟨hl1, hl2, hl3, hl4⟩ := hleft
  have hright := extendRight_le a b ahi bhi bhi l.1 l.2.1 l.2.2 hl2 hl4
  show BestIn alo ahi blo bhi (l.1, l.2.1, extendRight a b ahi bhi bhi l.1 l.2.1 l.2.2)
  exact ⟨hl1, hright.1, hl3, hright.2⟩

/-- Total size of a block list. -/
def blocksTotal (l : List (Nat × Nat × Nat)) : Nat := (l.map (fun t => t.2.2)).sum

/-- The matching blocks of a region have total size at most the region
width on either side. -/
lemma matchBlocks_total_le (a b : Str) (b2j : List (Char × List Nat)) :
    ∀ (fuel alo ahi blo bhi : Nat), alo ≤ ahi → blo ≤ bhi →
      blocksTotal (matchBlocks a b b2j fuel alo ahi blo bhi) + alo ≤ ahi ∧
        blocksTotal (matchBlocks a b b2j fuel alo ahi blo bhi) + blo ≤ bhi := by
  intro fuel
  induction fuel with
  | zero =>
    intro alo ahi blo bhi h1 h2
    simp only [matchBlocks, blocksTotal, List.map_nil, List.sum_nil]
    omega
  | succ fuel ih =>
    intro alo ahi blo bhi h1 h2
    obtain ⟨hb1, hb2, hb3, hb4⟩ := findLongestMatch_in a b b2j h1 h2
    simp only [matchBlocks]
    by_cases hk : (findLongestMatch a b b2j alo ahi blo bhi).2.2 = 0
    · rw [if_pos hk]
      simp only [blocksTotal, List.map_nil, List.sum_nil]
      omega
    · rw [if_neg hk]
      set m := findLongestMatch a b b2j alo ahi blo bhi with hm
      have hsum :
          blocksTotal (m :: ((if alo < m.1 ∧ blo < m.2.1 then
              matchBlocks a b b2j fuel alo m.1 blo m.2.1 else []) ++
            (if m.1 + m.2.2 < ahi ∧ m.2.1 + m.2.2 < bhi then
              matchBlocks a b b2j fuel (m.1 + m.2.2) ahi (m.2.1 + m.2.2) bhi else []))) =
            m.2.2 +
              (blocksTotal (if alo < m.1 ∧ blo < m.2.1 then
                matchBlocks a b b2j fuel alo m.1 blo m.2.1 else []) +
              blocksTotal (if m.1 + m.2.2 < ahi ∧ m.2.1 + m.2.2 < bhi then
                matchBlocks a b b2j fuel (m.1 + m.2.2) ahi (m.2.1 + m.2.2) bhi else [])) := by
        simp [blocksTotal]
      rw [hsum]
      have hL : blocksTotal (if alo < m.1 ∧ blo < m.2.1 then
          matchBlocks a b b2j fuel alo m.1 blo m.2.1 else []) + alo ≤ m.1 ∧
          blocksTotal (if alo < m.1 ∧ blo < m.2.1 then
            matchBlocks a b b2j fuel alo m.1 blo m.2.1 else []) + blo ≤ m.2.1 := by
        by_cases hg : alo < m.1 ∧ blo < m.2.1
        · rw [if_pos hg]
          exact ih alo m.1 blo m.2.1 (by omega) (by omega)
        · rw [if_neg hg]
          simp only [blocksTotal, List.map_nil, List.sum_nil]
          omega
      have hR : blocksTotal (if m.1 + m.2.2 < ahi ∧ m.2.1 + m.2.2 < bhi then
          matchBlocks a b b2j fuel (m.1 + m.2.2) ahi (m.2.1 + m.2.2) bhi else []) +
            (m.1 + m.2.2) ≤ ahi ∧
          blocksTotal (if m.1 + m.2.2 < ahi ∧ m.2.1 + m.2.2 < bhi then
            matchBlocks a b b2j fuel (m.1 + m.2.2) ahi (m.2.1 + m.2.2) bhi else []) +
            (m.2.1 + m.2.2) ≤ bhi := by
        by_cases hg : m.1 + m.2.2 < ahi ∧ m.2.1 + m.2.2 < bhi
        · rw [if_pos hg]
          exact ih (m.1 + m.2.2) ahi (m.2.1 + m.2.2) bhi (by omega) (by omega)
        · rw [if_neg hg]
          simp only [blocksTotal, List.map_nil, List.sum_nil]
          omega
      omega

/-- The SequenceMatcher ratio is non-negative. -/
lemma ratioOf_nonneg (a b : Str) : 0 ≤ ratioOf a b := by
  unfold ratioOf
  by_cases h : a.length + b.length = 0
  · rw [if_pos h]; norm_num
  · rw [if_neg h, Rat.mkRat_eq_div]
    apply div_nonneg <;> positivity

/-- The SequenceMatcher ratio is at most one. -/
lemma ratioOf_le_one (a b : Str) : ratioOf a b ≤ 1 := by
  unfold ratioOf
  by_cases h : a.length + b.length = 0
  · rw [if_pos h]
  · rw [if_neg h, Rat.mkRat_eq_div]
    have hs := matchBlocks_total_le a b (chainB b) (a.length + 1) 0 a.length 0 b.length
      (by omega) (by omega)
    rw [div_le_one (by exact_mod_cast Nat.pos_of_ne_zero h)]
    have h2 : 2 * blocksTotal
        (matchBlocks a b (chainB b) (a.length + 1) 0 a.length 0 b.length) ≤
          a.length + b.length := by omega
    exact_mod_cast h2

/-- C9 counterexample: `similarity` is not symmetric.  With a 200-character
second argument, SequenceMatcher's autojunk discards the popular character
`'x'` from the index, so `similarity("zx", "x"*200) = 0`, while in the
flipped orientation the short string is indexed and
`similarity("x"*200, "zx") = 2/202`. -/
theorem similarity_not_symmetric_cex :
    similarity (List.replicate 200 'x') ['z', 'x'] ≠
      similarity ['z', 'x'] (List.replicate 200 'x') := by decide

/-- C9 (amended): `similarity` always lies in `[0, 1]` and is `1.0` when
both inputs are empty; symmetry, however, fails in general (see the
counterexample): it holds only as far as SequenceMatcher's autojunk
heuristic is not triggered. -/
theorem similarity_bounded_and_empty :
    (∀ a b : Str, 0 ≤ similarity a b ∧ similarity a b ≤ 1) ∧
      similarity ([] : Str) ([] : Str) = 1 := by
  refine ⟨fun a b => ?_, by decide⟩
  unfold similarity
  by_cases h : a = [] ∧ b = []
  · rw [if_pos h]; norm_num
  · rw [if_neg h]
    exact ⟨ratioOf_nonneg a b, ratioOf_le_one a b⟩

/-! ## C10: merge_edges groups by the ordered (source, target) key -/

/-- One step of the grouping fold preserves: distinct keys, each bucket
being the filter of the processed prefix by its key, and coverage of all
processed elements. -/
lemma ogroupStep_inv {α κ : Type} [DecidableEq κ] (key : α → κ) (done : List α)
    (acc : List (κ × List α)) (x : α)
    (h1 : acc.Pairwise (fun p q => p.1 ≠ q.1))
    (h2 : ∀ p ∈ acc, p.2 = done.filter (fun y => key y = p.1))
    (h3 : ∀ y ∈ done, ∃ p ∈ acc, p.1 = key y) :
    (ogroupStep key acc x).Pairwise (fun p q => p.1 ≠ q.1) ∧
      (∀ p ∈ ogroupStep key acc x, p.2 = (done ++ [x]).filter (fun y => key y = p.1)) ∧
      (∀ y ∈ done ++ [x], ∃ p ∈ ogroupStep key acc x, p.1 = key y) := by
  unfold ogroupStep
  have ffst : ∀ p : κ × List α,
      ((if p.1 = key x then (p.1, p.2 ++ [x]) else p) : κ × List α).1 = p.1 := by
    intro p; split <;> rfl
  by_cases hmem : acc.any (fun p => decide (p.1 = key x)) = true
  · rw [if_pos hmem]
    obtain ⟨q, hq, hqk⟩ := List.any_eq_true.mp hmem
    rw [decide_eq_true_eq] at hqk
    refine ⟨?_, ?_, ?_⟩
    · refine List.pairwise_map.mpr (h1.imp ?_)
      intro p q hpq
      rw [ffst, ffst]
      exact hpq
    · intro p hp
      rcases List.mem_map.mp hp with ⟨r, hr, hre⟩
      by_cases hrk : r.1 = key x
      · rw [if_pos hrk] at hre
        rw [← hre]
        simp only [List.filter_append]
        rw [← h2 r hr]
        simp [hrk]
      · rw [if_neg hrk] at hre
        rw [← hre]
        rw [h2 r hr]
        simp only [List.filter_append]
        have : (List.filter (fun y => decide (key y = r.1)) [x]) = [] := by
          simp only [List.filter]
          rw [decide_eq_false (by intro hc; exact hrk hc.symm)]
      
        rw [this, List.append_nil]
    · intro y hy
      rcases List.mem_append.mp hy with hy2 | hy2
      · obtain ⟨p, hp, hpk⟩ := h3 y hy2
        exact ⟨_, List.mem_map_of_mem _ hp, by rw [ffst]; exact hpk⟩
      · have : y = x := by simpa using hy2
        subst this
        exact ⟨_, List.mem_map_of_mem _ hq, by rw [ffst]; exact hqk⟩
  · rw [if_neg hmem]
    have hnone : ∀ p ∈ acc, p.1 ≠ key x := by
      intro p hp hc
      exact hmem (List.any_eq_true.mpr ⟨p, hp, by simp [hc]⟩)
    refine ⟨?_, ?_, ?_⟩
    · rw [List.pairwise_append]
      refine ⟨h1, List.pairwise_singleton _ _, ?_⟩
      intro p hp q hq
      have : q = (key x, [x]) := by simpa using hq
      rw [this]
      exact hnone p hp
    · intro p hp
      rcases List.mem_append.mp hp with hp2 | hp2
      · rw [h2 p hp2]
        simp only [List.filter_append]
        have : (List.filter (fun y => decide (key y = p.1)) [x]) = [] := by
          simp only [List.filter]
          rw [decide_eq_false (by intro hc; exact hnone p hp2 hc.symm)]
      
        rw [this, List.append_nil]
      · have hpv : p = (key x, [x]) := by simpa using hp2
        subst hpv
        have hdone : (List.filter (fun y => decide (key y = key x)) done) = [] := by
          rw [List.filter_eq_nil_iff]
          intro y hy hc
          rw [decide_eq_true_eq] at hc
          obtain ⟨p, hp, hpk⟩ := h3 y hy
          exact hnone p hp (by rw [hpk, hc])
        simp only [List.filter_append, hdone, List.nil_append]
        simp [List.filter]
    · intro y hy
      rcases List.mem_append.mp hy with hy2 | hy2
      · obtain ⟨p, hp, hpk⟩ := h3 y hy2
        exact ⟨p, List.mem_append_left _ hp, hpk⟩
      · have hyx : y = x := by simpa using hy2
        refine ⟨(key x, [x]), List.mem_append_right _ (by simp), ?_⟩
        rw [hyx]

/-- The grouping fold invariant, over the whole list. -/
lemma ogroup_fold_inv {α κ : Type} [DecidableEq κ] (key : α → κ) :
    ∀ (l done : List α) (acc : List (κ × List α)),
      acc.Pairwise (fun p q => p.1 ≠ q.1) →
      (∀ p ∈ acc, p.2 = done.filter (fun y => key y = p.1)) →
      (∀ y ∈ done, ∃ p ∈ acc, p.1 = key y) →
      (l.foldl (ogroupStep key) acc).Pairwise (fun p q => p.1 ≠ q.1) ∧
        (∀ p ∈ l.foldl (ogroupStep key) acc,
          p.2 = (done ++ l).filter (fun y => key y = p.1)) ∧
        (∀ y ∈ done ++ l, ∃ p ∈ l.foldl (ogroupStep key) acc, p.1 = key y) := by
  intro l
  induction l with
  | nil =>
    intro done acc h1 h2 h3
    simp only [List.foldl_nil, List.append_nil]
    exact ⟨h1, h2, h3⟩
  | cons x l ih =>
    intro done acc h1 h2 h3
    obtain ⟨s1, s2, s3⟩ := ogroupStep_inv key done acc x h1 h2 h3
    have := ih (done ++ [x]) (ogroupStep key acc x) s1 s2 s3
    simpa [List.append_assoc] using this

/-- `ogroup` has pairwise-distinct keys, buckets that are exactly the
key-filters of the input, and covers every input element. -/
lemma ogroup_spec {α κ : Type} [DecidableEq κ] (key : α → κ) (l : List α) :
    (ogroup key l).Pairwise (fun p q => p.1 ≠ q.1) ∧
      (∀ p ∈ ogroup key l, p.2 = l.filter (fun x => key x = p.1)) ∧
      (∀ x ∈ l, ∃ p ∈ ogroup key l, p.1 = key x) := by
  have := ogroup_fold_inv key l [] [] List.Pairwise.nil
    (fun p hp => absurd hp (List.not_mem_nil p))
    (fun y hy => absurd hy (List.not_mem_nil y))
  simpa [ogroup] using this

/-- C10: `merge_edges` groups strictly by the *ordered* pair
`(source, target)`: the output records have pairwise-distinct ordered keys
(so an `A→B` edge and a `B→A` edge with `A ≠ B` are never merged into one
record), each record's `edges` list consists of exactly the input edges with
that ordered key, in input order, and its `avg_weight` is the arithmetic
mean of those edges' weights rounded to 2 decimal places. -/
theorem merge_edges_grouping_spec (es : List EdgeIn) :
    ((mergeEdges es).Pairwise fun o1 o2 =>
        ¬(o1.source = o2.source ∧ o1.target = o2.target)) ∧
      ∀ o ∈ mergeEdges es,
        o.edges =
            (es.filter (fun e => e.source = o.source ∧ e.target = o.target)).map
              subEdgeOf ∧
          o.avg_weight =
            pyRoundTo 2
              (((es.filter (fun e => e.source = o.source ∧ e.target = o.target)).map
                    (fun e => e.weight.getD 1)).sum /
                (((es.filter (fun e => e.source = o.source ∧ e.target = o.target)).map
                    (fun e => e.weight.getD 1)).length : ℚ)) := by
  obtain ⟨hpw, hbuckets, -⟩ := ogroup_spec (fun e : EdgeIn => (e.source, e.target)) es
  constructor
  · refine List.pairwise_map.mpr (hpw.imp ?_)
    intro p q hpq hc
    exact hpq (Prod.ext_iff.mpr ⟨hc.1, hc.2⟩)
  · intro o ho
    rcases List.mem_map.mp ho with ⟨p, hp, rfl⟩
    have hbucket := hbuckets p hp
    have hfe : es.filter (fun e => decide ((e.source, e.target) = p.1)) =
        es.filter (fun e => decide (e.source = p.1.1 ∧ e.target = p.1.2)) := by
      apply List.filter_congr
      intro e _
      exact decide_eq_decide.mpr Prod.ext_iff
    have hsub : p.2 = es.filter (fun e => decide (e.source = p.1.1 ∧ e.target = p.1.2)) := by
      rw [hbucket, ← hfe]
    constructor
    · show p.2.map subEdgeOf = _
      rw [hsub]
    · show pyRoundTo 2
          (if (p.2.map (fun e => (subEdgeOf e).weight)).length = 0 then 0
           else (p.2.map (fun e => (subEdgeOf e).weight)).sum /
             ((p.2.map (fun e => (subEdgeOf e).weight)).length : ℚ)) = _
      rw [hsub]
      set ws := ((es.filter
          (fun e => decide (e.source = p.1.1 ∧ e.target = p.1.2))).map
            (fun e => (subEdgeOf e).weight)) with hws
      by_cases hlen : ws.length = 0
      · rw [if_pos hlen]
        have hnil : ws = [] := List.length_eq_zero.mp hlen
        show pyRoundTo 2 0 =
          pyRoundTo 2 (ws.sum / (ws.length : ℚ))
        rw [hnil]
        norm_num
      · rw [if_neg hlen]
        rfl

/-! ## The near/partial loop invariant (shared by C1, C2 and C4) -/

/-- The member paths of a report group. -/
def gPaths (g : DupGroup) : List String := g.files.map (fun f => f.path)

/-- Invariants maintained by the `for it in remaining` loop accumulator:
the `used_in_group` set is exactly the union of the emitted groups' member
paths; emitted groups are pairwise path-disjoint; every emitted group is a
`near`/`partial` group of at least two members whose kind is decided by the
maximum pairwise member similarity against `near_thresh`; and every member
entry is the projection of some item of `remaining`. -/
structure NpInv (remaining : List Item) (nThresh : ℚ)
    (acc : List DupGroup × List String) : Prop where
  used_eq : ∀ pth, pth ∈ acc.2 ↔ ∃ g ∈ acc.1, pth ∈ gPaths g
  disj : acc.1.Pairwise (fun g1 g2 => ∀ pth ∈ gPaths g1, pth ∉ gPaths g2)
  types : ∀ g ∈ acc.1, (g.type = "near" ∨ g.type = "partial") ∧
      (g.type = "near" ↔ nThresh ≤ maxPairSimE g.files) ∧
      g.sha256 = none ∧ 2 ≤ g.files.length
  src : ∀ g ∈ acc.1, ∀ f ∈ g.files, ∃ i ∈ remaining, f = toEntry i

/-- `maxPairSimE` on projected entries agrees with `maxPairSim` on items. -/
lemma maxPairSimE_toEntry (g : List Item) : maxPairSimE (g.map toEntry) = maxPairSim g := by
  unfold maxPairSim maxPairSimE
  simp only [List.enum_map, List.foldl_map]
  rfl

/-- Everything the refinement admits comes from the candidate list. -/
lemma refineAdmit_sub {anchor : Item} {cands : List Item} {pThresh : ℚ} :
    ∀ x ∈ refineAdmit anchor cands pThresh, x ∈ cands :=
  fun _ hx => (List.filter_sublist _).subset hx

/-- Appending one refined group (whose members are unused items of
`remaining`) preserves the invariant. -/
lemma npAdd_inv (remaining : List Item) (nThresh : ℚ)
    (acc : List DupGroup × List String) (h : NpInv remaining nThresh acc)
    (fg : List Item) (hfg_rem : ∀ x ∈ fg, x ∈ remaining ∧ x.path ∉ acc.2)
    (h2 : 1 < fg.length) :
    NpInv remaining nThresh
      (acc.1 ++ [⟨if nThresh ≤ maxPairSim fg then "near" else "partial", none,
        fg.map toEntry⟩], acc.2 ++ fg.map (fun x => x.path)) := by
  set g : DupGroup :=
    ⟨if nThresh ≤ maxPairSim fg then "near" else "partial", none, fg.map toEntry⟩
    with hgdef
  have hgp : gPaths g = fg.map (fun x => x.path) := by
    simp [gPaths, hgdef, toEntry]
  refine ⟨?_, ?_, ?_, ?_⟩
  · intro pth
    constructor
    · intro hp
      rcases List.mem_append.mp hp with hp2 | hp2
      · obtain ⟨g1, hg1, hg1p⟩ := (h.used_eq pth).mp hp2
        exact ⟨g1, List.mem_append_left _ hg1, hg1p⟩
      · exact ⟨g, List.mem_append_right _ (by simp), by rw [hgp]; exact hp2⟩
    · intro hex
      obtain ⟨g1, hg1, hg1p⟩ := hex
      rcases List.mem_append.mp hg1 with hg2 | hg2
      · exact List.mem_append_left _ ((h.used_eq pth).mpr ⟨g1, hg2, hg1p⟩)
      · have hgg : g1 = g := by simpa using hg2
        rw [hgg, hgp] at hg1p
        exact List.mem_append_right _ hg1p
  · rw [List.pairwise_append]
    refine ⟨h.disj, List.pairwise_singleton _ _, ?_⟩
    intro g1 hg1 g2 hg2 pth hpth
    have hg2g : g2 = g := by simpa using hg2
    rw [hg2g, hgp]
    intro hpg
    rcases List.mem_map.mp hpg with ⟨x, hx, hxp⟩
    have hxu := (hfg_rem x hx).2
    rw [hxp] at hxu
    exact hxu ((h.used_eq pth).mpr ⟨g1, hg1, hpth⟩)
  · intro g1 hg1
    rcases List.mem_append.mp hg1 with hg2 | hg2
    · exact h.types g1 hg2
    · have hg2g : g1 = g := by simpa using hg2
      rw [hg2g]
      refine ⟨?_, ?_, rfl, ?_⟩
      · by_cases hn : nThresh ≤ maxPairSim fg
        · exact Or.inl (by simp [hgdef, hn])
        · exact Or.inr (by simp [hgdef, hn])
      · have hms : maxPairSimE g.files = maxPairSim fg := by
          rw [hgdef]
          exact maxPairSimE_toEntry fg
        rw [hms]
        by_cases hn : nThresh ≤ maxPairSim fg
        · simp [hgdef, hn]
        · simp [hgdef, hn]
      · show 2 ≤ (fg.map toEntry).length
        rw [List.length_map]
        omega
  · intro g1 hg1 f hf
    rcases List.mem_append.mp hg1 with hg2 | hg2
    · exact h.src g1 hg2 f hf
    · have hg2g : g1 = g := by simpa using hg2
      rw [hg2g] at hf
      rcases List.mem_map.mp hf with ⟨x, hx, hxe⟩
      exact ⟨x, (hfg_rem x hx).1, hxe.symm⟩

/-- Members of the refined group drawn from a filtered candidate list are
unused items of `remaining`. -/
lemma npFilter_fact (remaining : List Item) (cands : List String) (acc2 : List String)
    (anchor : Item) (rest : List Item) (pThresh : ℚ)
    (heq : remaining.filter (fun x => decide (x.path ∈ cands ∧ x.path ∉ acc2)) =
      anchor :: rest) :
    ∀ x ∈ anchor :: refineAdmit anchor rest pThresh, x ∈ remaining ∧ x.path ∉ acc2 := by
  intro x hx
  have hx2 : x ∈ remaining.filter (fun x => decide (x.path ∈ cands ∧ x.path ∉ acc2)) := by
    rw [heq]
    rcases List.mem_cons.mp hx with rfl | hx3
    · exact List.mem_cons_self _ _
    · exact List.mem_cons_of_mem _ (refineAdmit_sub x hx3)
  have h3 := List.mem_filter.mp hx2
  refine ⟨h3.1, ?_⟩
  have h4 := h3.2
  simp only [decide_eq_true_eq] at h4
  exact h4.2

/-- One loop iteration preserves the invariant. -/
lemma npStep_inv (remaining : List Item) (query : String → List String)
    (nThresh pThresh : ℚ) (acc : List DupGroup × List String) (it : Item)
    (h : NpInv remaining nThresh acc) :
    NpInv remaining nThresh (npStep remaining query nThresh pThresh acc it) := by
  unfold npStep
  split
  · exact h
  · simp only []
    split
    all_goals
      split
      · exact h
      · split
        · exact h
        · rename_i anchor rest heq
          split
          · rename_i h2
            exact npAdd_inv remaining nThresh acc h _
              (npFilter_fact remaining _ acc.2 anchor rest pThresh heq) h2
          · exact h

/-- The whole loop establishes the invariant. -/
lemma npLoop_inv (remaining : List Item) (query : String → List String)
    (nThresh pThresh : ℚ) :
    NpInv remaining nThresh (npLoop remaining query nThresh pThresh) := by
  unfold npLoop
  have hgen : ∀ (l : List Item) (acc : List DupGroup × List String),
      NpInv remaining nThresh acc →
      NpInv remaining nThresh (l.foldl (npStep remaining query nThresh pThresh) acc) := by
    intro l
    induction l with
    | nil => intro acc hacc; exact hacc
    | cons x l ih =>
      intro acc hacc
      exact ih _ (npStep_inv remaining query nThresh pThresh acc x hacc)
  refine hgen remaining ([], []) ?_
  refine ⟨?_, List.Pairwise.nil, ?_, ?_⟩
  · intro pth
    simp
  · intro g hg; cases hg
  · intro g hg; cases hg

/-! ## Decomposition of buildReportPure (shared by C1, C2 and C4) -/

/-- The SHA buckets of size at least two. -/
def repBig (items0 : List Item) (minPages : Nat) : List (String × List Item) :=
  (shaMap (scanFilter items0 minPages)).filter (fun p => 2 ≤ p.2.length)

/-- The `seen` path set of the exact pass. -/
def repSeen (items0 : List Item) (minPages : Nat) : List String :=
  (repBig items0 minPages).flatMap (fun p => p.2.map (fun i => i.path))

/-- The `remaining` list fed to the LSH pass. -/
def repRemaining (items0 : List Item) (minPages : Nat) : List Item :=
  (scanFilter items0 minPages).filter (fun i => i.path ∉ repSeen items0 minPages)

lemma buildReportPure_groups (files : List String) (items0 : List Item)
    (nThresh pThresh : ℚ) (minPages : Nat) (query : String → List String) :
    (buildReportPure files items0 nThresh pThresh minPages query).groups =
      (repBig items0 minPages).map
        (fun p => (⟨"exact", some p.1, p.2.map toEntry⟩ : DupGroup)) ++
      (npLoop (repRemaining items0 minPages) query nThresh pThresh).1 := rfl

lemma buildReportPure_singles (files : List String) (items0 : List Item)
    (nThresh pThresh : ℚ) (minPages : Nat) (query : String → List String) :
    (buildReportPure files items0 nThresh pThresh minPages query).singletons =
      ((scanFilter items0 minPages).filter
        (fun i => i.path ∉ repSeen items0 minPages ∧
          i.path ∉ (npLoop (repRemaining items0 minPages) query nThresh pThresh).2)).map
        toEntry := rfl

/-! ## C4: a group's kind is decided by its maximum pairwise similarity -/

/-- C4: every non-exact group emitted by `build_report` has kind `near` if
and only if the maximum of `similarity` over all ordered pairs of distinct
member entries is at least `near_thresh`, and kind `partial` exactly
otherwise. -/
theorem group_kind_near_iff_max_sim (E : Env) (files : List String)
    (nThresh pThresh : ℚ) (minPages : Nat) (query : String → List String)
    (r : Report) (g : DupGroup)
    (hok : buildReportE E files nThresh pThresh minPages query = Except.ok r)
    (hg : g ∈ r.groups) (hne : g.type ≠ "exact") :
    (g.type = "near" ↔ nThresh ≤ maxPairSimE g.files) ∧
      (g.type = "partial" ↔ maxPairSimE g.files < nThresh) := by
  unfold buildReportE at hok
  cases hscan : scanAll E files with
  | error e => rw [hscan] at hok; cases hok
  | ok items =>
    rw [hscan] at hok
    injection hok with h2
    have hr : r = buildReportPure files items nThresh pThresh minPages query := h2.symm
    subst hr
    rw [buildReportPure_groups] at hg
    rcases List.mem_append.mp hg with hg2 | hg2
    · exfalso
      rcases List.mem_map.mp hg2 with ⟨p, hp, hpe⟩
      apply hne
      rw [← hpe]
    · have hinv := npLoop_inv (repRemaining items minPages) query nThresh pThresh
      obtain ⟨hor, hiff, -, -⟩ := hinv.types g hg2
      refine ⟨hiff, ?_, ?_⟩
      · intro hp
        rw [← not_le]
        intro hc
        have hnear := hiff.mpr hc
        rw [hp] at hnear
        exact absurd hnear (by decide)
      · intro hlt
        rcases hor with hnr | hpr
        · exact absurd (hiff.mp hnr) (not_le.mpr hlt)
        · exact hpr

/-- The near group produced by the demo run. -/
def demoGroup : DupGroup :=
  ⟨"near", none, [⟨"a", 1, [], "h0", none, []⟩, ⟨"b", 1, [], "h1", none, []⟩]⟩

/-- Witness for `group_kind_near_iff_max_sim` on the demo run. -/
theorem group_kind_near_iff_max_sim_witness :
    (demoGroup.type = "near" ↔ mkRat 9 10 ≤ maxPairSimE demoGroup.files) ∧
      (demoGroup.type = "partial" ↔ maxPairSimE demoGroup.files < mkRat 9 10) :=
  group_kind_near_iff_max_sim demoEnv ["a", "b"] (mkRat 9 10) (mkRat 3 5) 0 demoQuery
    demoReport demoGroup (by decide) (by decide) (by decide)

/-! ## Scanning lemmas (shared by C1 and C2) -/

/-- A successful scan of one path determines the whole record. -/
lemma scanItem_ok {E : Env} {p : String} {it : Item} (h : scanItem E p = Except.ok it) :
    ∃ bytes, E.fs p = some bytes ∧
      it = ⟨p, E.nameFn p, bytes.length, E.shaFn bytes, normalizeText (E.rawText p),
        E.pagesFn p, E.mhFn (E.rawText p)⟩ := by
  unfold scanItem at h
  cases hfs : E.fs p with
  | none => rw [hfs] at h; cases h
  | some bytes =>
    rw [hfs] at h
    refine ⟨bytes, rfl, ?_⟩
    injection h with h2
    exact h2.symm

/-- Every scanned item comes from scanning some input path. -/
lemma scanAll_ok_mem {E : Env} : ∀ {files : List String} {items : List Item},
    scanAll E files = Except.ok items →
      ∀ it ∈ items, ∃ p ∈ files, scanItem E p = Except.ok it := by
  intro files
  induction files with
  | nil =>
    intro items h it hit
    unfold scanAll at h
    injection h with h2
    rw [← h2] at hit
    cases hit
  | cons p ps ih =>
    intro items h it hit
    unfold scanAll at h
    cases h1 : scanItem E p with
    | error e => rw [h1] at h; cases h
    | ok i0 =>
      rw [h1] at h
      cases h2 : scanAll E ps with
      | error e => rw [h2] at h; cases h
      | ok its =>
        rw [h2] at h
        injection h with h3
        rw [← h3] at hit
        rcases List.mem_cons.mp hit with rfl | hit2
        · exact ⟨p, by simp, h1⟩
        · obtain ⟨q, hq, hq2⟩ := ih h2 it hit2
          exact ⟨q, List.mem_cons_of_mem _ hq, hq2⟩

/-- Every scanned item's signature is the MinHash of its raw text. -/
lemma scanAll_minhash {E : Env} {files : List String} {items : List Item}
    (h : scanAll E files = Except.ok items) :
    ∀ it ∈ items, it.minhash = E.mhFn (E.rawText it.path) := by
  intro it hit
  obtain ⟨p, -, hok⟩ := scanAll_ok_mem h it hit
  obtain ⟨bytes, -, hrec⟩ := scanItem_ok hok
  rw [hrec]

/-- Two scanned items with the same path are equal (every field is a
function of the path). -/
lemma scanAll_pathFun {E : Env} {files : List String} {items : List Item}
    (h : scanAll E files = Except.ok items) :
    ∀ i1 ∈ items, ∀ i2 ∈ items, i1.path = i2.path → i1 = i2 := by
  intro i1 h1 i2 h2 hp
  obtain ⟨p1, -, hok1⟩ := scanAll_ok_mem h i1 h1
  obtain ⟨p2, -, hok2⟩ := scanAll_ok_mem h i2 h2
  obtain ⟨b1, hfs1, hrec1⟩ := scanItem_ok hok1
  obtain ⟨b2, hfs2, hrec2⟩ := scanItem_ok hok2
  have hp1 : i1.path = p1 := by rw [hrec1]
  have hp2 : i2.path = p2 := by rw [hrec2]
  have hpp : p1 = p2 := by rw [← hp1, ← hp2, hp]
  subst hpp
  rw [hfs1] at hfs2
  injection hfs2 with hb
  rw [hrec1, hrec2, hb]

lemma scanFilter_sub (items0 : List Item) (minPages : Nat) :
    ∀ i ∈ scanFilter items0 minPages, i ∈ items0 := by
  intro i hi
  unfold scanFilter at hi
  split at hi
  · exact (List.filter_sublist _).subset hi
  · exact hi

/-- Every group member entry of the report projects an input item. -/
lemma report_groups_entry_src (files : List String) (items0 : List Item)
    (nThresh pThresh : ℚ) (minPages : Nat) (query : String → List String) :
    ∀ g ∈ (buildReportPure files items0 nThresh pThresh minPages query).groups,
      ∀ f ∈ g.files, ∃ i ∈ items0, f = toEntry i := by
  intro g hg f hf
  rw [buildReportPure_groups] at hg
  rcases List.mem_append.mp hg with hg2 | hg2
  · rcases List.mem_map.mp hg2 with ⟨p, hp, hpe⟩
    rw [← hpe] at hf
    rcases List.mem_map.mp hf with ⟨i, hi, hie⟩
    have hpsm : p ∈ shaMap (scanFilter items0 minPages) := (List.filter_sublist _).subset hp
    obtain ⟨-, hbuckets, -⟩ := ogroup_spec (fun i : Item => i.sha256) (scanFilter items0 minPages)
    rw [hbuckets p hpsm] at hi
    exact ⟨i, scanFilter_sub items0 minPages i ((List.filter_sublist _).subset hi), hie.symm⟩
  · have hinv := npLoop_inv (repRemaining items0 minPages) query nThresh pThresh
    obtain ⟨i, hi, hie⟩ := hinv.src g hg2 f hf
    exact ⟨i, scanFilter_sub items0 minPages i ((List.filter_sublist _).subset hi), hie⟩

/-- Every singleton entry of the report projects an input item. -/
lemma report_singles_entry_src (files : List String) (items0 : List Item)
    (nThresh pThresh : ℚ) (minPages : Nat) (query : String → List String) :
    ∀ s ∈ (buildReportPure files items0 nThresh pThresh minPages query).singletons,
      ∃ i ∈ items0, s = toEntry i := by
  intro s hs
  rw [buildReportPure_singles] at hs
  rcases List.mem_map.mp hs with ⟨i, hi, hie⟩
  exact ⟨i, scanFilter_sub items0 minPages i ((List.filter_sublist _).subset hi), hie.symm⟩

/-- C2 (amended): every group member entry and every singleton entry of the
report *carries* the raw MinHash signature: its `minhash` field is exactly
the signature computed for that file's extracted text. -/
theorem report_entries_carry_signature (E : Env) (files : List String)
    (nThresh pThresh : ℚ) (minPages : Nat) (query : String → List String) (r : Report)
    (hok : buildReportE E files nThresh pThresh minPages query = Except.ok r) :
    (∀ g ∈ r.groups, ∀ f ∈ g.files, f.minhash = E.mhFn (E.rawText f.path)) ∧
      ∀ s ∈ r.singletons, s.minhash = E.mhFn (E.rawText s.path) := by
  unfold buildReportE at hok
  cases hscan : scanAll E files with
  | error e => rw [hscan] at hok; cases hok
  | ok items =>
    rw [hscan] at hok
    injection hok with h2
    have hr : r = buildReportPure files items nThresh pThresh minPages query := h2.symm
    subst hr
    constructor
    · intro g hg f hf
      obtain ⟨i, hi, hfe⟩ :=
        report_groups_entry_src files items nThresh pThresh minPages query g hg f hf
      rw [hfe]
      show i.minhash = E.mhFn (E.rawText i.path)
      exact scanAll_minhash hscan i hi
    · intro s hs
      obtain ⟨i, hi, hfe⟩ :=
        report_singles_entry_src files items nThresh pThresh minPages query s hs
      rw [hfe]
      show i.minhash = E.mhFn (E.rawText i.path)
      exact scanAll_minhash hscan i hi

/-- The items of the `sigEnv` one-file run. -/
def sigItems : List Item := [⟨"a.pdf", "a.pdf", 0, "h", [], none, [5, 7]⟩]

/-- The report of the `sigEnv` one-file run (one singleton). -/
def sigReport : Report :=
  buildReportPure ["a.pdf"] sigItems (mkRat 9 10) (mkRat 3 5) 0 (fun _ => [])

/-- Witness for `report_entries_carry_signature` on the `sigEnv` run. -/
theorem report_entries_carry_signature_witness :
    (∀ g ∈ sigReport.groups, ∀ f ∈ g.files,
        f.minhash = sigEnv.mhFn (sigEnv.rawText f.path)) ∧
      ∀ s ∈ sigReport.singletons, s.minhash = sigEnv.mhFn (sigEnv.rawText s.path) :=
  report_entries_carry_signature sigEnv ["a.pdf"] (mkRat 9 10) (mkRat 3 5) 0
    (fun _ => []) sigReport (by decide)

/-! ## C1: groups are pairwise disjoint and partition the scanned files -/

lemma gPaths_map_toEntry (t : String) (sh : Option String) (l : List Item) :
    gPaths ⟨t, sh, l.map toEntry⟩ = l.map (fun i => i.path) := by
  unfold gPaths
  rw [List.map_map]
  rfl

lemma mem_repSeen {items0 : List Item} {minPages : Nat} {pth : String} :
    pth ∈ repSeen items0 minPages ↔
      ∃ p ∈ repBig items0 minPages, ∃ i ∈ p.2, i.path = pth := by
  unfold repSeen
  rw [List.mem_flatMap]
  constructor
  · intro ⟨p, hp, hmem⟩
    rcases List.mem_map.mp hmem with ⟨i, hi, hie⟩
    exact ⟨p, hp, i, hi, hie⟩
  · intro ⟨p, hp, i, hi, hie⟩
    exact ⟨p, hp, List.mem_map.mpr ⟨i, hi, hie⟩⟩

lemma mem_repRemaining {items0 : List Item} {minPages : Nat} {i : Item} :
    i ∈ repRemaining items0 minPages ↔
      i ∈ scanFilter items0 minPages ∧ i.path ∉ repSeen items0 minPages := by
  unfold repRemaining
  rw [List.mem_filter]
  constructor
  · intro ⟨h1, h2⟩
    exact ⟨h1, by simpa using h2⟩
  · intro ⟨h1, h2⟩
    exact ⟨h1, by simpa using h2⟩

lemma repBig_bucket {items0 : List Item} {minPages : Nat} {p : String × List Item}
    (hp : p ∈ repBig items0 minPages) :
    p.2 = (scanFilter items0 minPages).filter (fun i => i.sha256 = p.1) := by
  obtain ⟨-, hbuckets, -⟩ :=
    ogroup_spec (fun i : Item => i.sha256) (scanFilter items0 minPages)
  exact hbuckets p ((List.filter_sublist _).subset hp)

lemma repBig_keys (items0 : List Item) (minPages : Nat) :
    (repBig items0 minPages).Pairwise (fun p q => p.1 ≠ q.1) :=
  List.Pairwise.sublist (List.filter_sublist _)
    (ogroup_spec (fun i : Item => i.sha256) (scanFilter items0 minPages)).1

lemma mem_singles_iff {files : List String} {items0 : List Item} {nThresh pThresh : ℚ}
    {minPages : Nat} {query : String → List String} {pth : String} :
    pth ∈ (buildReportPure files items0 nThresh pThresh minPages query).singletons.map
        (fun s => s.path) ↔
      ∃ i ∈ scanFilter items0 minPages, i.path = pth ∧
        i.path ∉ repSeen items0 minPages ∧
        i.path ∉ (npLoop (repRemaining items0 minPages) query nThresh pThresh).2 := by
  rw [buildReportPure_singles, List.map_map]
  constructor
  · intro h
    rcases List.mem_map.mp h with ⟨i, hi, hip⟩
    have h2 := List.mem_filter.mp hi
    have h3 := h2.2
    simp only [decide_eq_true_eq] at h3
    exact ⟨i, h2.1, hip, h3.1, h3.2⟩
  · intro ⟨i, hi, hip, h1, h2⟩
    exact List.mem_map.mpr ⟨i, List.mem_filter.mpr ⟨hi, by simp [h1, h2]⟩, hip⟩

lemma repBig_bucket_mem {items0 : List Item} {minPages : Nat} {p : String × List Item}
    {i : Item} (hp : p ∈ repBig items0 minPages) (hi : i ∈ p.2) :
    i ∈ scanFilter items0 minPages ∧ i.sha256 = p.1 := by
  rw [repBig_bucket hp] at hi
  have h2 := List.mem_filter.mp hi
  exact ⟨h2.1, by simpa using h2.2⟩

/-- C1: in every completed run of `build_report`, the emitted groups (exact,
near and partial together) are pairwise disjoint on member paths; a path is
a scanned document's path exactly when it lies in some group or in the
singleton list; and no path lies both in a group and in the singleton
list. -/
theorem buildReport_groups_disjoint_partition (E : Env) (files : List String)
    (nThresh pThresh : ℚ) (minPages : Nat) (query : String → List String)
    (items : List Item) (hscan : scanAll E files = Except.ok items) :
    (buildReportPure files items nThresh pThresh minPages query).groups.Pairwise
        (fun g1 g2 => ∀ pth ∈ gPaths g1, pth ∉ gPaths g2) ∧
      (∀ pth, pth ∈ (scanFilter items minPages).map (fun i => i.path) ↔
        ((∃ g ∈ (buildReportPure files items nThresh pThresh minPages query).groups,
            pth ∈ gPaths g) ∨
          pth ∈ (buildReportPure files items nThresh pThresh minPages query).singletons.map
            (fun s => s.path))) ∧
      ∀ g ∈ (buildReportPure files items nThresh pThresh minPages query).groups,
        ∀ pth ∈ gPaths g,
          pth ∉ (buildReportPure files items nThresh pThresh minPages query).singletons.map
            (fun s => s.path) := by
  have pf : ∀ i1 ∈ scanFilter items minPages, ∀ i2 ∈ scanFilter items minPages,
      i1.path = i2.path → i1 = i2 := by
    intro i1 h1 i2 h2
    exact scanAll_pathFun hscan i1 (scanFilter_sub items minPages i1 h1) i2
      (scanFilter_sub items minPages i2 h2)
  have hinv := npLoop_inv (repRemaining items minPages) query nThresh pThresh
  have hnp_rem : ∀ g ∈ (npLoop (repRemaining items minPages) query nThresh pThresh).1,
      ∀ pth ∈ gPaths g, ∃ i ∈ repRemaining items minPages, i.path = pth := by
    intro g hg pth hp
    rcases List.mem_map.mp hp with ⟨f, hf, hfp⟩
    obtain ⟨i, hi, hfe⟩ := hinv.src g hg f hf
    refine ⟨i, hi, ?_⟩
    rw [← hfp, hfe]
    rfl
  refine ⟨?_, ?_, ?_⟩
  · -- pairwise disjointness of all groups
    rw [buildReportPure_groups, List.pairwise_append]
    refine ⟨?_, hinv.disj, ?_⟩
    · -- exact vs exact
      refine List.pairwise_map.mpr
        (List.Pairwise.imp_of_mem ?_ (repBig_keys items minPages))
      intro p q hpmem hqmem hne pth hp hq
      rw [gPaths_map_toEntry] at hp hq
      rcases List.mem_map.mp hp with ⟨i1, hi1, hie1⟩
      rcases List.mem_map.mp hq with ⟨i2, hi2, hie2⟩
      obtain ⟨hm1, hs1⟩ := repBig_bucket_mem hpmem hi1
      obtain ⟨hm2, hs2⟩ := repBig_bucket_mem hqmem hi2
      have h12 : i1 = i2 := pf i1 hm1 i2 hm2 (by rw [hie1, hie2])
      apply hne
      rw [← hs1, ← hs2, h12]
    · -- exact vs near/partial
      intro g1 hg1 g2 hg2 pth hp1 hp2
      rcases List.mem_map.mp hg1 with ⟨p, hpmem, hpe⟩
      rw [← hpe, gPaths_map_toEntry] at hp1
      rcases List.mem_map.mp hp1 with ⟨i1, hi1, hie1⟩
      have hseen : pth ∈ repSeen items minPages :=
        mem_repSeen.mpr ⟨p, hpmem, i1, hi1, hie1⟩
      obtain ⟨i2, hi2, hie2⟩ := hnp_rem g2 hg2 pth hp2
      have := (mem_repRemaining.mp hi2).2
      rw [hie2] at this
      exact this hseen
  · -- partition
    intro pth
    constructor
    · intro hmem
      rcases List.mem_map.mp hmem with ⟨i, hi, hip⟩
      by_cases hseen : i.path ∈ repSeen items minPages
      · left
        obtain ⟨p, hpmem, i1, hi1, hie1⟩ := mem_repSeen.mp hseen
        refine ⟨⟨"exact", some p.1, p.2.map toEntry⟩, ?_, ?_⟩
        · rw [buildReportPure_groups]
          exact List.mem_append_left _ (List.mem_map.mpr ⟨p, hpmem, rfl⟩)
        · rw [gPaths_map_toEntry]
          exact List.mem_map.mpr ⟨i1, hi1, by rw [hie1, hip]⟩
      · have hrem : i ∈ repRemaining items minPages := mem_repRemaining.mpr ⟨hi, hseen⟩
        by_cases hused :
            i.path ∈ (npLoop (repRemaining items minPages) query nThresh pThresh).2
        · left
          obtain ⟨g, hg, hgp⟩ := (hinv.used_eq i.path).mp hused
          refine ⟨g, ?_, by rw [← hip]; exact hgp⟩
          rw [buildReportPure_groups]
          exact List.mem_append_right _ hg
        · right
          exact mem_singles_iff.mpr ⟨i, hi, hip, hseen, hused⟩
    · intro h
      rcases h with ⟨g, hg, hgp⟩ | hs
      · rw [buildReportPure_groups] at hg
        rcases List.mem_append.mp hg with hg2 | hg2
        · rcases List.mem_map.mp hg2 with ⟨p, hpmem, hpe⟩
          rw [← hpe, gPaths_map_toEntry] at hgp
          rcases List.mem_map.mp hgp with ⟨i1, hi1, hie1⟩
          exact List.mem_map.mpr ⟨i1, (repBig_bucket_mem hpmem hi1).1, hie1⟩
        · obtain ⟨i, hi, hie⟩ := hnp_rem g hg2 pth hgp
          exact List.mem_map.mpr ⟨i, (mem_repRemaining.mp hi).1, hie⟩
      · obtain ⟨i, hi, hip, -, -⟩ := mem_singles_iff.mp hs
        exact List.mem_map.mpr ⟨i, hi, hip⟩
  · -- a grouped path is never a singleton path
    intro g hg pth hgp hs
    obtain ⟨i, hi, hip, hnseen, hnused⟩ := mem_singles_iff.mp hs
    rw [buildReportPure_groups] at hg
    rcases List.mem_append.mp hg with hg2 | hg2
    · rcases List.mem_map.mp hg2 with ⟨p, hpmem, hpe⟩
      rw [← hpe, gPaths_map_toEntry] at hgp
      rcases List.mem_map.mp hgp with ⟨i1, hi1, hie1⟩
      apply hnseen
      rw [hip]
      exact mem_repSeen.mpr ⟨p, hpmem, i1, hi1, hie1⟩
    · apply hnused
      rw [hip]
      exact (hinv.used_eq pth).mpr ⟨g, hg2, hgp⟩

/-- Witness for `buildReport_groups_disjoint_partition` on the demo run. -/
theorem buildReport_groups_disjoint_partition_witness :
    demoReport.groups.Pairwise (fun g1 g2 => ∀ pth ∈ gPaths g1, pth ∉ gPaths g2) ∧
      (∀ pth, pth ∈ (scanFilter demoItems 0).map (fun i => i.path) ↔
        ((∃ g ∈ demoReport.groups, pth ∈ gPaths g) ∨
          pth ∈ demoReport.singletons.map (fun s => s.path))) ∧
      ∀ g ∈ demoReport.groups, ∀ pth ∈ gPaths g,
        pth ∉ demoReport.singletons.map (fun s => s.path) :=
  buildReport_groups_disjoint_partition demoEnv ["a", "b"] (mkRat 9 10) (mkRat 3 5) 0
    demoQuery demoItems (by decide)
